import Mathlib

/-!
Verification development for the `typebox-utils` library (src/src/index.ts,
src/src/polyfill.ts and the sibling variants shipped in the same package).

The development shallowly embeds the JavaScript value model and the
library's own functions:

* `OID` models the mongodb `ObjectId` value type through its canonical
  24-hex-character lowercase string encoding (`ObjectId#toString`).
* `Value` models the JavaScript value trees the library manipulates.
* `applyAct` is the generic in-place path walker shared (verbatim, up to the
  leaf conversion) by `convertStringsToObjectIds`, `convertObjectIdToStrings`
  and `convertObjectIds` (their inner `setValue` closures).
* `Schema` models the TypeBox schema nodes the library builds and traverses
  (`format`, `type`, `properties`, `items`, `default`, `pattern`, bounds).

In-place mutation is modelled functionally: each mutator returns the tree
as it stands after the call, and the orchestration functions thread those
trees explicitly.
-/

set_option autoImplicit false

namespace TBU

/-! ## Characters and hex strings -/

/-- Hex digit in either case, as tested by the regular expression
character class used throughout the source: 0-9a-fA-F. -/
def isHexDigitB (c : Char) : Bool :=
  ('0' ≤ c && c ≤ '9') || ('a' ≤ c && c ≤ 'f') || ('A' ≤ c && c ≤ 'F')

/-- Canonical (lowercase) hex digit: what `ObjectId#toString` emits. -/
def isCanonHexB (c : Char) : Bool :=
  ('0' ≤ c && c ≤ '9') || ('a' ≤ c && c ≤ 'f')

/-- Lowercase an ASCII uppercase hex digit, leave everything else alone
(the case normalisation the ObjectId constructor performs on 24-hex input). -/
def hexLowerChar (c : Char) : Char :=
  if 'A' ≤ c && c ≤ 'F' then Char.ofNat (c.toNat + 32) else c

def hexLowerStr (s : String) : String :=
  ⟨s.data.map hexLowerChar⟩

/-- Hex digit character for a nibble value below 16. -/
def nibbleChar (n : Nat) : Char :=
  if n < 10 then Char.ofNat ('0'.toNat + n) else Char.ofNat ('a'.toNat + (n - 10))

/-- Two lowercase hex digits for one byte. -/
def byteHex (n : Nat) : List Char :=
  [nibbleChar (n % 256 / 16), nibbleChar (n % 16)]

/-! ## The ObjectId value type

`ObjectId` stores twelve bytes; `toString` renders them as 24 lowercase hex
characters, and the constructor accepts either a 24-hex string (any case)
or a 12-character string taken as raw bytes.  We model the value through its
canonical string encoding: the `hex` field of an `OID` holds what
`toString` returns. -/

structure OID where
  hex : String
  deriving DecidableEq, Repr

/-- `ObjectId.isValid` on strings: a 12-character string, or 24 hex
characters (the `/^[0-9a-fA-F]{24}$/` shape). -/
def oidIsValid (s : String) : Bool :=
  s.length = 12 || (s.length = 24 && s.data.all isHexDigitB)

/-- `new ObjectId(s)` for a string `s` the driver accepts: 24-hex input is
case-normalised, 12-character input is read as raw bytes and hex-encoded.
(The real constructor throws on other strings; the library only calls it on
strings passing `ObjectId.isValid`, or on `schema.default`, and every
theorem below invokes this model identically on both sides of any equation
involving that unguarded call.) -/
def mkOID (s : String) : OID :=
  if s.length = 24 then ⟨hexLowerStr s⟩
  else ⟨⟨(s.data.map fun c => byteHex (c.toNat % 256)).flatten⟩⟩

/-- `ObjectId#toString`. -/
def oidToString (o : OID) : String := o.hex

/-- An `OID` is canonical when its encoding is what `toString` can actually
produce: 24 lowercase hex characters.  Every ObjectId instance built by the
driver is canonical. -/
def canonOID (o : OID) : Bool :=
  o.hex.length = 24 && o.hex.data.all isCanonHexB

/-! ## JavaScript values -/

mutual
/-- JavaScript values as the library sees them: primitives, ObjectId
instances, arrays and plain objects (ordered key/value fields). -/
inductive Value where
  | vnull : Value
  | vundef : Value
  | vbool : Bool → Value
  | vnum : Int → Value
  | vstr : String → Value
  | oid : OID → Value
  | varr : VList → Value
  | vobj : VProps → Value
  deriving DecidableEq, Repr

inductive VList where
  | nil : VList
  | cons : Value → VList → VList
  deriving DecidableEq, Repr

inductive VProps where
  | nil : VProps
  | cons : String → Value → VProps → VProps
  deriving DecidableEq, Repr
end

namespace VList

def length : VList → Nat
  | .nil => 0
  | .cons _ r => r.length + 1

def get? : VList → Nat → Option Value
  | .nil, _ => none
  | .cons v _, 0 => some v
  | .cons _ r, n + 1 => r.get? n

def set : VList → Nat → Value → VList
  | .nil, _, _ => .nil
  | .cons _ r, 0, x => .cons x r
  | .cons v r, n + 1, x => .cons v (r.set n x)

/-- Map a function over every element (`Array.prototype.forEach` mutating
each element in place). -/
def map (h : Value → Value) : VList → VList
  | .nil => .nil
  | .cons v r => .cons (h v) (r.map h)

end VList

namespace VProps

/-- First field with the given key (JavaScript property read). -/
def get? : VProps → String → Option Value
  | .nil, _ => none
  | .cons k v r, f => if k = f then some v else r.get? f

/-- Update the first field with the given key, leave the object unchanged
when the key is absent.  The source only ever assigns to keys it has just
read a value from, so the absent case is unreachable there. -/
def set : VProps → String → Value → VProps
  | .nil, _, _ => .nil
  | .cons k v r, f, x => if k = f then .cons k x r else .cons k v (r.set f x)

end VProps

namespace Value

/-- JavaScript truthiness for the values in the model. -/
def truthy : Value → Bool
  | .vnull => false
  | .vundef => false
  | .vbool b => b
  | .vnum n => n ≠ 0
  | .vstr s => s ≠ ""
  | .oid _ => true
  | .varr _ => true
  | .vobj _ => true

/-- `value === undefined`, as a structural test. -/
def isUndef : Value → Bool
  | .vundef => true
  | _ => false

/-- `target[first]` member read.  Objects answer with their first matching
field; arrays answer canonical numeric indexes (`a["2"]` is `a[2]` in
JavaScript only for the canonical decimal spelling).  Reads on primitives,
strings and ObjectId instances are modelled as absent: the concrete walker
below never converts anything it finds beneath them (character reads and
driver-internal fields only ever reach a non-string non-ObjectId leaf or a
length-1 string, on which every conversion branch is a no-op), so the
observable effect is identical. -/
def memGet : Value → String → Option Value
  | .vobj l, f => l.get? f
  | .varr l, f =>
    match f.toNat? with
    | some i => if toString i = f then l.get? i else none
    | none => none
  | _, _ => none

/-- `target[first] = x` member write, on the same positions `memGet` reads. -/
def memSet : Value → String → Value → Value
  | .vobj l, f, x => .vobj (l.set f x)
  | .varr l, f, x =>
    match f.toNat? with
    | some i => if toString i = f then .varr (l.set i x) else .varr l
    | none => .varr l
  | t, _, _ => t

end Value

/-! ## The generic path walker

`convertStringsToObjectIds`, `convertObjectIdToStrings` and
`convertObjectIds` each declare the same inner `setValue(target, segments,
value)` recursion and differ only in the terminal conversion they apply to
`target[first]`.  `applyAct act` is that recursion with the terminal
conversion abstracted as `act` (`act m = some m'` replaces the member,
`act m = none` leaves it in place). -/

def applyAct (act : Value → Option Value) : List String → Value → Value
  | [], t => t
  | f :: rest, t =>
    if f = "*" then
      -- if (Array.isArray(target)) fan out; else if (Array.isArray(target?.items)) fan out
      match t with
      | .varr l => .varr (l.map (applyAct act rest))
      | _ =>
        match t.memGet "items" with
        | some (.varr l) => t.memSet "items" (.varr (l.map (applyAct act rest)))
        | _ => t
    else if rest.isEmpty then
      -- terminal segment: leaf conversion on target[first]
      match t.memGet f with
      | some m =>
        match act m with
        | some m' => t.memSet f m'
        | none => t
      | none => t
    else
      -- if (target[first]) recurse
      match t.memGet f with
      | some m => if m.truthy then t.memSet f (applyAct act rest m) else t
      | none => t

/-- Terminal conversion of `convertStringsToObjectIds`:
`typeof target[first] === 'string' && ObjectId.isValid(target[first])`
replaces the string with `new ObjectId(target[first])`. -/
def actS2O : Value → Option Value
  | .vstr s => if oidIsValid s then some (.oid (mkOID s)) else none
  | _ => none

/-- Terminal conversion of `convertObjectIdToStrings`:
`target[first] instanceof ObjectId` replaces it with its string form. -/
def actO2S : Value → Option Value
  | .oid o => some (.vstr (oidToString o))
  | _ => none

/-- The `'666666666666666666666666'` auto-generation sentinel of
`ObjectIdType`/`convertObjectIds`. -/
def sentinel : String := "666666666666666666666666"

/-- Terminal conversion of `convertObjectIds` (the `ObjectIdType` variant):
like `actS2O`, except that the sentinel string is replaced by a freshly
generated ObjectId, supplied here as the `fresh` parameter. -/
def actOidGen (fresh : OID) : Value → Option Value
  | .vstr s =>
    if oidIsValid s then
      some (if s = sentinel then .oid fresh else .oid (mkOID s))
    else none
  | _ => none

/-! ## Auxiliary notions for reasoning about the walker

`leafLike` marks the values that carry no members of their own in the
walker's member model; `canonV` says every ObjectId instance inside a tree
is canonical (which every driver-built instance is); `editKey` is the
single-member edit all non-fanning steps of `setValue` reduce to, and
`termPhi`/`stepPhi`/`starPhi` are the member transformations of the
terminal, recursive and `items`-fallback steps respectively. -/

/-- Values with no members in the walker's member model (everything except
arrays and plain objects). -/
def Value.leafLike : Value → Bool
  | .varr _ => false
  | .vobj _ => false
  | _ => true

/-- Constructor tag, for stating that an operation preserves a value's
top-level shape. -/
def Value.tag : Value → Nat
  | .vnull => 0
  | .vundef => 1
  | .vbool _ => 2
  | .vnum _ => 3
  | .vstr _ => 4
  | .oid _ => 5
  | .varr _ => 6
  | .vobj _ => 7

mutual
/-- Every ObjectId instance in the tree is canonical. -/
def canonV : Value → Bool
  | .vnull => true
  | .vundef => true
  | .vbool _ => true
  | .vnum _ => true
  | .vstr _ => true
  | .oid o => canonOID o
  | .varr l => canonVL l
  | .vobj ps => canonVP ps

def canonVL : VList → Bool
  | .nil => true
  | .cons v r => canonV v && canonVL r

def canonVP : VProps → Bool
  | .nil => true
  | .cons _ v r => canonV v && canonVP r
end

/-- Apply a member transformation to the member at `k`, in place; a missing
member is left alone. -/
def editKey (k : String) (φ : Value → Value) (t : Value) : Value :=
  match t.memGet k with
  | some m => t.memSet k (φ m)
  | none => t

/-- The terminal step's member transformation: replace the member when the
leaf conversion fires. -/
def termPhi (act : Value → Option Value) (m : Value) : Value :=
  match act m with
  | some m' => m'
  | none => m

/-- The non-terminal step's member transformation: recurse into a truthy
member. -/
def stepPhi (act : Value → Option Value) (rest : List String) (m : Value) :
    Value :=
  if m.truthy then applyAct act rest m else m

/-- The `items`-fallback member transformation of a `*` step: fan out over
an array-valued member. -/
def starPhi (act : Value → Option Value) (rest : List String) (m : Value) :
    Value :=
  match m with
  | .varr l => .varr (l.map (applyAct act rest))
  | _ => m

/-! ## Schema nodes

The TypeBox schema options the library reads or writes: `format`, `type`,
`pattern`, `description`, `properties`, `items`, `default`,
`minimum`/`maximum`.  A `default` is either absent, a literal value, or a
zero-argument generator installed by one of the factories (modelled by a
tag naming which generator the source installs). -/

/-- The generators the factories install as `default`.  `oidThunk` is the
`() => config?.default || (config?.random ? new ObjectId().toString() :
undefined)` closure of `Utils.ObjectId` (its captured `config?.default` is
falsy in the branch that builds it). -/
inductive GenKind where
  | nowMs : GenKind
  | randomUUID : GenKind
  | randomEmail : GenKind
  | randomMobile : GenKind
  | oidThunk : Bool → GenKind
  deriving DecidableEq, Repr

/-- A schema node's `default` annotation.  `noneD` covers both an absent
key and the `undefined` value the factories' `||` chains can produce. -/
inductive SDefault where
  | noneD : SDefault
  | litD : Value → SDefault
  | genD : GenKind → SDefault
  deriving DecidableEq, Repr

/-- JavaScript truthiness of the `default` annotation (`schema.default`):
absent/undefined is falsy, a literal is as truthy as its value, an
installed generator function is truthy. -/
def SDefault.truthyD : SDefault → Bool
  | .noneD => false
  | .litD v => v.truthy
  | .genD _ => true

mutual
/-- A TypeBox schema node, restricted to the options this library reads
or writes. -/
inductive Schema where
  | node :
      (format : Option String) → (ty : Option String) →
      (pattern : Option String) → (description : Option String) →
      (props : Option SProps) → (items : Option Schema) →
      (dflt : SDefault) →
      (minimum : Option Int) → (maximum : Option Int) → Schema
  deriving Repr

/-- The `properties` record of an object schema, in declaration order. -/
inductive SProps where
  | nil : SProps
  | cons : String → Schema → SProps → SProps
  deriving Repr
end

namespace Schema

def format : Schema → Option String
  | .node f _ _ _ _ _ _ _ _ => f

def ty : Schema → Option String
  | .node _ t _ _ _ _ _ _ _ => t

def props : Schema → Option SProps
  | .node _ _ _ _ p _ _ _ _ => p

def items : Schema → Option Schema
  | .node _ _ _ _ _ i _ _ _ => i

def dflt : Schema → SDefault
  | .node _ _ _ _ _ _ d _ _ => d

def pattern : Schema → Option String
  | .node _ _ p _ _ _ _ _ _ => p

def minimum : Schema → Option Int
  | .node _ _ _ _ _ _ _ m _ => m

def maximum : Schema → Option Int
  | .node _ _ _ _ _ _ _ _ m => m

end Schema

/-! ## getObjectIdPaths -/

mutual
/-- The recursive `traverse` of `getObjectIdPaths`: record the current path
at an `objectid`-format node and stop; descend into `properties` of object
nodes building `path ? path + '.' + key : key` (`traversePropsIf`);
descend into `items` of array nodes building `path + '.*'`
(`traverseItemsIf` — note: unconditionally, even when `path` is empty). -/
def traverseOid : Schema → String → List String
  | .node fmt ty _ _ props items _ _ _, path =>
    if fmt = some "objectid" then [path]
    else traversePropsIf ty props path ++ traverseItemsIf ty items path

/-- The `if (schema['type'] === 'object' && schema['properties'])` branch. -/
def traversePropsIf : Option String → Option SProps → String → List String :=
  fun ty props path =>
    if ty = some "object" then
      match props with
      | some ps => traverseOidProps ps path
      | none => []
    else []

def traverseOidProps : SProps → String → List String
  | .nil, _ => []
  | .cons key prop rest, path =>
    traverseOid prop (if path = "" then key else path ++ "." ++ key)
      ++ traverseOidProps rest path

/-- The `if (schema['type'] === 'array' && schema['items'])` branch. -/
def traverseItemsIf : Option String → Option Schema → String → List String :=
  fun ty items path =>
    if ty = some "array" then
      match items with
      | some s => traverseOid s (path ++ ".*")
      | none => []
    else []
end

/-- `getObjectIdPaths(schema)` with the default empty prefix. -/
def getObjectIdPaths (schema : Schema) : List String :=
  traverseOid schema ""

/-! ## The converters -/

/-- `new ObjectId(schema.default)`: the unguarded constructor call in the
direct-ObjectId branch of `convertStringsToObjectIds`/`convertObjectIds`.
The real constructor throws on a malformed argument; the model is total,
and every theorem below reaches this call with the same argument on both
sides of the equation it states. -/
def mkOIDofDefault : SDefault → OID
  | .litD (.vstr s) => mkOID s
  | _ => mkOID ""

/-- `path.split('.')`: split on every dot, keeping empty segments
(so `'a.b'` gives `['a','b']`, `'.*'` gives `['','*']` and `''` gives
`['']`), exactly as `String.prototype.split` does for a one-character
separator. -/
def splitDots (s : String) : List String :=
  go s.data []
where
  go : List Char → List Char → List String
    | [], acc => [⟨acc.reverse⟩]
    | c :: cs, acc => if c = '.' then ⟨acc.reverse⟩ :: go cs [] else go cs (c :: acc)

/-- Run `setValue(obj, path.split('.'), null)` for every non-empty path of
the list, in order (the `for (const path of oidPaths)` loop shared by all
three converters). -/
def foldPaths (act : Value → Option Value) (paths : List String) (obj : Value) : Value :=
  paths.foldl (fun acc p => if p = "" then acc else applyAct act (splitDots p) acc) obj

/-- `setValue(obj, path.split('.'), null)` guarded by the loop's
`path !== ''` test. -/
def pathEdit (act : Value → Option Value) (p : String) (v : Value) : Value :=
  if p = "" then v else applyAct act (splitDots p) v

/-- The properties shared by the leaf conversions of the three converters:
they never fire on arrays or objects, firing consumes the opportunity
(`once`), and both the converted member and its replacement are truthy
member-less leaves. -/
structure ActGood (act : Value → Option Value) : Prop where
  arr : ∀ l, act (.varr l) = none
  obj : ∀ pr, act (.vobj pr) = none
  once : ∀ m m', act m = some m' → act m' = none
  fire : ∀ m m', act m = some m' → m.leafLike = true ∧ m.truthy = true ∧
    m'.leafLike = true ∧ m'.truthy = true

/-- The member transformations a single walker step applies, with a weight
bounding the length of walker runs hidden inside them. -/
inductive IsPhi (act : Value → Option Value) : Nat → (Value → Value) → Prop
  | term : IsPhi act 0 (termPhi act)
  | step (rest : List String) : IsPhi act rest.length (stepPhi act rest)
  | star (rest : List String) : IsPhi act (rest.length + 1) (starPhi act rest)

/-- Walker runs along any two segment lists of combined length at most `n`
commute. -/
def CommUpTo (act : Value → Option Value) (n : Nat) : Prop :=
  ∀ (p q : List String) (t : Value), p.length + q.length ≤ n →
    applyAct act p (applyAct act q t) = applyAct act q (applyAct act p t)

/-- `convertStringsToObjectIds(obj, schema, oidPaths)` from
src/src/index.ts lines 168-205. -/
def convertStringsToObjectIds (obj : Value) (schema : Schema) (oidPaths : List String) : Value :=
  if oidPaths = [""] then
    -- direct ObjectId case
    if obj.isUndef && schema.dflt.truthyD then .oid (mkOIDofDefault schema.dflt)
    else
      match obj with
      | .vstr s => if oidIsValid s then .oid (mkOID s) else foldPaths actS2O oidPaths obj
      | .oid _ => obj
      | _ => foldPaths actS2O oidPaths obj
  else foldPaths actS2O oidPaths obj

/-- `convertObjectIdToStrings(obj, schema, oidPaths)` from
src/src/index.ts lines 214-250. -/
def convertObjectIdToStrings (obj : Value) (_schema : Schema) (oidPaths : List String) : Value :=
  if oidPaths = [""] then
    match obj with
    | .oid o => .vstr (oidToString o)
    | _ => obj
  else foldPaths actO2S oidPaths obj

/-- `convertObjectIds(obj, schema)` from the `ObjectIdType` variant
(lines 477-529): computes the paths itself and treats the sentinel string
as a request for a fresh ObjectId (`fresh`). -/
def convertObjectIds (fresh : OID) (obj : Value) (schema : Schema) : Value :=
  let paths := getObjectIdPaths schema
  if paths = [""] then
    if obj.isUndef && schema.dflt.truthyD then .oid (mkOIDofDefault schema.dflt)
    else
      match obj with
      | .vstr s =>
        if oidIsValid s then
          if s = sentinel then .oid fresh else .oid (mkOID s)
        else foldPaths (actOidGen fresh) paths obj
      | .oid _ => obj
      | _ => foldPaths (actOidGen fresh) paths obj
  else foldPaths (actOidGen fresh) paths obj

/-! ## The validate pipeline option list

`validate` (src/src/index.ts lines 302-340) builds the operation list it
passes to `Value.Parse` from the fixed default set, the caller's skip list,
the `setDifference` polyfill and JavaScript `Set` de-duplication. -/

/-- JavaScript `Set` construction from a list: de-duplicate keeping the
first occurrence, preserving insertion order (`Array.from(new Set(l))`). -/
def jsSetList : List String → List String :=
  go []
where
  go : List String → List String → List String
    | _, [] => []
    | seen, x :: xs => if x ∈ seen then go seen xs else x :: go (x :: seen) xs

/-- `setDifference(setA, setB)` from src/src/polyfill.ts: the elements of
`setA`, in order, that are not in `setB`. -/
def setDifference (setA setB : List String) : List String :=
  setA.filter (fun x => !setB.contains x)

/-- The operation list `validate` passes to `Value.Parse`:
`['Clone', ...Array.from(new Set(Array.from(setDifference(new Set(['Clone','Clean','Default','Convert']), new Set(skipOperations)))))]`. -/
def validateOps (skipOperations : List String) : List String :=
  let _operations := jsSetList ["Clone", "Clean", "Default", "Convert"]
  let _skipOperations := jsSetList skipOperations
  let operations := setDifference _operations _skipOperations
  "Clone" :: jsSetList operations

/-! ## The caller-visible effect of `validate` on its argument

`validate` mutates the caller's object in exactly one place: when
`containsObjectId` is set it runs
`convertObjectIdToStrings(value, schema, oidPaths)` on the argument itself
(line 325), before `Value.Parse` — whose first operation, `Clone`, copies
the value, so the parse pipeline and everything after it work on a fresh
tree.  In the direct-ObjectId case (`oidPaths = ['']`)
`convertObjectIdToStrings` returns a new value without touching the
argument, so the in-place effect is the `setValue` loop only. -/
def validateEffectOnCaller (value : Value) (schema : Schema)
    (containsObjectId : Bool) (_skipOperations : List String) : Value :=
  if containsObjectId then
    let oidPaths := getObjectIdPaths schema
    if oidPaths = [""] then value
    else foldPaths actO2S oidPaths value
  else value

/-! ## Result tuples of validate / Encode / Decode

`Value.Parse` and the compiled checker are external TypeBox capabilities;
their outcomes are passed to the models as explicit parameters, and the
models reproduce how the entry points turn those outcomes into the
`[error, value]` tuples they return. -/

/-- String rendering used by JavaScript template interpolation
(`String(x)` semantics for the values of the model; an ObjectId renders as
its hex encoding, an array joins its rendered elements with commas). -/
def jsDisplay : Value → String
  | .vnull => "null"
  | .vundef => "undefined"
  | .vbool b => if b then "true" else "false"
  | .vnum n => toString n
  | .vstr s => s
  | .oid o => o.hex
  | .varr l => String.intercalate "," (jsDisplayList l)
  | .vobj _ => "[object Object]"
where
  jsDisplayList : VList → List String
    | .nil => []
    | .cons v r => jsDisplay v :: jsDisplayList r

/-- `JSON.stringify` of the offending value, used when building the
`validate` error message (BSON ObjectId serialises through its `toJSON`
as its hex string). -/
def jsonStringify : Value → String
  | .vnull => "null"
  | .vundef => "undefined"
  | .vbool b => if b then "true" else "false"
  | .vnum n => toString n
  | .vstr s => "\"" ++ s ++ "\""
  | .oid o => "\"" ++ o.hex ++ "\""
  | .varr l => "[" ++ String.intercalate "," (jsonList l) ++ "]"
  | .vobj ps => "\x7b" ++ String.intercalate "," (jsonProps ps) ++ "\x7d"
where
  jsonList : VList → List String
    | .nil => []
    | .cons v r => jsonStringify v :: jsonList r
  jsonProps : VProps → List String
    | .nil => []
    | .cons k v r => ("\"" ++ k ++ "\":" ++ jsonStringify v) :: jsonProps r

/-- The first structural violation reported by the compiled checker:
`schema._compiled.Errors(VP).First()` when `Check` fails. -/
structure CheckErr where
  message : String
  path : String
  value : Value

/-- The error string `validate` builds from the first violation:
`` `${E?.message || 'Invalid value'}${path}${errorValue}` `` with
`path = E?.path ? ` at '${E.path}'` : ''` and
`errorValue = E?.value ? ` (got ${JSON.stringify(E.value)})` : ''`. -/
def validateErrMsg (E : Option CheckErr) : String :=
  let msg := match E with
    | some e => if e.message = "" then "Invalid value" else e.message
    | none => "Invalid value"
  let path := match E with
    | some e => if e.path = "" then "" else " at '" ++ e.path ++ "'"
    | none => ""
  let errorValue := match E with
    | some e => if e.value.truthy then " (got " ++ jsonStringify e.value ++ ")" else ""
    | none => ""
  msg ++ path ++ errorValue

/-- The `[error, value]` tuple `validate` returns, given the outcomes of
the external capabilities: `parsed` is what `Value.Parse` returned,
`checkOk` what `_compiled.Check(VP)` returned, and `firstErr` the first
entry of `_compiled.Errors(VP)` when the check failed.  On failure the
second slot is the caller's argument as it stands after the call (the
in-place ObjectId-to-string pass included); on success it is the parsed
value, with qualifying strings converted back to ObjectIds when
`containsObjectId` is set. -/
def modelValidate (value : Value) (schema : Schema) (containsObjectId : Bool)
    (skipOperations : List String) (parsed : Value) (checkOk : Bool)
    (firstErr : Option CheckErr) : Option String × Value :=
  let callerValue := validateEffectOnCaller value schema containsObjectId skipOperations
  if checkOk then
    (none,
      if containsObjectId then
        convertStringsToObjectIds parsed schema (getObjectIdPaths schema)
      else parsed)
  else (some (validateErrMsg firstErr), callerValue)

/-- The exception payload `Encode`/`Decode` (src/unnamed/part_002 lines
147-189) catch from `Value.Parse`: the fields their message builder reads
through optional chaining and `||` fallbacks. -/
structure ParseErr where
  schemaErrorMessage : Option String
  message : Option String
  path : String
  value : Value

/-- `` msg + ` at path "${path}" but got "${passedValue}"` `` with
`msg = e?.error?.schema?.errorMessage || e?.error?.message || fallback`,
`path = e?.error?.path || ''` and `passedValue = e?.error?.value ||
undefined`. -/
def parseErrMsg (fallback : String) (e : ParseErr) : String :=
  let msg := match e.schemaErrorMessage with
    | some s => if s = "" then (match e.message with
        | some m => if m = "" then fallback else m
        | none => fallback) else s
    | none => match e.message with
        | some m => if m = "" then fallback else m
        | none => fallback
  let passedValue := if e.value.truthy then e.value else .vundef
  msg ++ " at path \"" ++ e.path ++ "\" but got \"" ++ jsDisplay passedValue ++ "\""

/-- The pipeline list `Decode` passes to `Value.Parse`. -/
def decodePipelines (applyDefault : Bool) : List String :=
  if applyDefault then ["Clean", "Default", "Convert", "Assert", "Decode"]
  else ["Clean", "Convert", "Assert", "Decode"]

/-- The pipeline list `Encode` passes to `Value.Parse`. -/
def encodePipelines (applyDefault : Bool) : List String :=
  if applyDefault then ["Encode", "Assert", "Convert", "Default", "Clean"]
  else ["Encode", "Assert", "Convert", "Clean"]

/-- The `[error, result]` tuple of `Decode(value, type, applyDefault)`,
given the outcome of the external `Value.Parse` run: `[null, result]` on
success and `[generatedMessage, undefined]` from the catch block on
failure (the second slot is `undefined as never`, not the input). -/
def modelDecode (_value : Value) (_applyDefault : Bool)
    (parseOutcome : Except ParseErr Value) : Option String × Value :=
  match parseOutcome with
  | .ok result => (none, result)
  | .error e => (some (parseErrMsg "Unknown decoding error" e), .vundef)

/-- The `[error, result]` tuple of `Encode(value, type, applyDefault)`. -/
def modelEncode (_value : Value) (_applyDefault : Bool)
    (parseOutcome : Except ParseErr Value) : Option String × Value :=
  match parseOutcome with
  | .ok result => (none, result)
  | .error e => (some (parseErrMsg "Unknown encoding error" e), .vundef)

/-! ## Format predicates

The regular expressions the module registers and tests defaults against,
as executable string predicates. -/

/-- The UUID v4 pattern
`^[0-9a-fA-F]{8}-[0-9a-fA-F]{4}-4[0-9a-fA-F]{3}-[89abAB][0-9a-fA-F]{3}-[0-9a-fA-F]{12}$`
as a per-character role list. -/
def uuidRoles : List (Char → Bool) :=
  List.replicate 8 isHexDigitB ++ [fun c => c == '-'] ++
  List.replicate 4 isHexDigitB ++ [fun c => c == '-'] ++
  [fun c => c == '4'] ++ List.replicate 3 isHexDigitB ++ [fun c => c == '-'] ++
  [fun c => c == '8' || c == '9' || c == 'a' || c == 'b' || c == 'A' || c == 'B'] ++
  List.replicate 3 isHexDigitB ++ [fun c => c == '-'] ++
  List.replicate 12 isHexDigitB

def uuidMatch (s : String) : Bool :=
  s.data.length = 36 && (List.zipWith (fun r c => r c) uuidRoles s.data).all id

/-- The source text of the UUID pattern installed on UUID schema nodes. -/
def uuidPatternSrc : String :=
  "^[0-9a-fA-F]\x7b8\x7d-[0-9a-fA-F]\x7b4\x7d-4[0-9a-fA-F]\x7b3\x7d-[89abAB][0-9a-fA-F]\x7b3\x7d-[0-9a-fA-F]\x7b12\x7d$"

/-- `^[^@]+@[^@]+\.[^@]+$`: exactly one `@`, a non-empty local part, and a
domain part containing a `.` that is neither its first nor last character. -/
def emailMatch (s : String) : Bool :=
  match s.splitOn "@" with
  | [a, b] => a ≠ "" && ((b.data.drop 1).dropLast.contains '.')
  | _ => false

/-- `^[0-9]{10}$`. -/
def mobileMatch (s : String) : Bool :=
  s.data.length = 10 && s.data.all (fun c => '0' ≤ c && c ≤ '9')

/-! ## The semantic type factories (`Utils`, first variant, lines 24-128)

Each factory takes its optional configuration record; an absent record
behaves exactly like a record with every field absent, so the models take
the record directly with `Option` fields.  Configuration errors are
modelled as `Except.error` (the source `throw new Error(...)`). -/

structure TimestampConfig where
  default : Option Int := none
  minimum : Option Int := none
  maximum : Option Int := none
  random : Bool := false

structure StrConfig where
  default : Option String := none
  random : Bool := false

/-- JavaScript truthiness of an optional number field. -/
def truthyNum : Option Int → Bool
  | some n => n ≠ 0
  | none => false

/-- JavaScript truthiness of an optional string field. -/
def truthyStr : Option String → Bool
  | some s => s ≠ ""
  | none => false

namespace Utils

/-- `Utils.Timestamp(config)`: a `Type.Number` node.  The `default`
annotation is `config?.default || (config?.random ? () => Date.now() :
undefined)` — a falsy literal default is discarded by the `||`. -/
def Timestamp (config : TimestampConfig) : Schema :=
  .node none (some "number") none
    (some "Unix timestamp (milliseconds since epoch)")
    none none
    (if truthyNum config.default then .litD (.vnum (config.default.getD 0))
     else if config.random then .genD .nowMs else .noneD)
    (some ((config.minimum).getD 0))
    config.maximum

/-- `Utils.UUID(config)`: throws at construction time when a truthy
literal default fails the UUID pattern; otherwise a `Type.String` node
with the pattern and `default: config?.default || (config?.random ? () =>
randomUUID() : undefined)`. -/
def UUID (config : StrConfig) : Except String Schema :=
  if truthyStr config.default && !uuidMatch (config.default.getD "") then
    .error ("Invalid default value for UUID " ++ config.default.getD "")
  else
    .ok (.node none (some "string") (some uuidPatternSrc)
      (some "UUID v4 format") none none
      (if truthyStr config.default then .litD (.vstr (config.default.getD ""))
       else if config.random then .genD .randomUUID else .noneD)
      none none)

/-- `Utils.Email(config)`: throws when a truthy literal default fails the
email pattern; note its `default` expression is `config?.random ? gen :
config?.default` (random wins, and a supplied literal is installed even
when falsy). -/
def Email (config : StrConfig) : Except String Schema :=
  if truthyStr config.default && !emailMatch (config.default.getD "") then
    .error ("Invalid default value for Email " ++ config.default.getD "")
  else
    .ok (.node (some "email") (some "string") none
      (some "Email format: example@domain.com") none none
      (if config.random then .genD .randomEmail
       else match config.default with
         | some s => .litD (.vstr s)
         | none => .noneD)
      none none)

/-- `Utils.Mobile(config)`. -/
def Mobile (config : StrConfig) : Except String Schema :=
  if truthyStr config.default && !mobileMatch (config.default.getD "") then
    .error ("Invalid default value for Mobile " ++ config.default.getD "")
  else
    .ok (.node (some "mobile") (some "string") none
      (some "10-digit mobile number") none none
      (if truthyStr config.default then .litD (.vstr (config.default.getD ""))
       else if config.random then .genD .randomMobile else .noneD)
      none none)

/-- `Utils.ObjectId(config)` (lines 111-127): with a truthy literal
default, return the node when `ObjectId.isValid(default)` holds and throw
otherwise; with no truthy default, install the
`() => config?.default || (config?.random ? new ObjectId().toString() :
undefined)` thunk as the default. -/
def ObjectId (config : StrConfig) : Except String Schema :=
  if truthyStr config.default then
    if oidIsValid (config.default.getD "") then
      .ok (.node (some "objectid") (some "string") none
        (some "MongoDB ObjectId") none none
        (.litD (.vstr (config.default.getD ""))) none none)
    else
      .error ("Invalid default value for ObjectIdType " ++ config.default.getD "")
  else
    .ok (.node (some "objectid") (some "string") none
      (some "MongoDB ObjectId") none none
      (.genD (.oidThunk config.random)) none none)

end Utils

/-- `ObjectIdType(autoGenerate)` from the variant file (lines 433-438):
an `objectid`-format string node whose default is the sentinel string when
`autoGenerate` is set. -/
def ObjectIdType (autoGenerate : Bool) : Schema :=
  .node (some "objectid") (some "string") none (some "MongoDB ObjectId")
    none none
    (if autoGenerate then .litD (.vstr sentinel) else .noneD)
    none none

/-- Modelled from the spec: the `Default` operation of the external
`Value.Parse` capability, which the repository documents as "Responsible
for generating missing properties on a value using default schema
annotations if available".  Applied to a single node: a missing
(`undefined`) value is filled from the node's default annotation —
a literal is used as-is, a generator is invoked (`genEval`), and with no
annotation the value stays missing. -/
def applyDefaultStage (schema : Schema) (genEval : GenKind → Value)
    (v : Value) : Value :=
  if v.isUndef then
    match schema.dflt with
    | .noneD => v
    | .litD x => x
    | .genD k => genEval k
  else v

/-! ## The compiled-schema wrapper (`createCompiledSchema`, lines 262-279)

Modelled over a minimal picture of JavaScript objects: a list of own
property descriptors plus the flattened own-property lists of the
prototype chain, in lookup order.  `createCompiledSchema` copies every own
descriptor of the schema onto a fresh object (via
`Object.getOwnPropertyDescriptors`) and gives it a new prototype that
carries `_compiled` as a non-enumerable, non-writable, non-configurable
property and chains to the schema's original prototype. -/

/-- A property value: either an ordinary value or the compiled checker
reference (identified by a token). -/
inductive PVal where
  | val : Value → PVal
  | checker : Nat → PVal
  deriving DecidableEq, Repr

structure PropDesc where
  value : PVal
  enumerable : Bool
  writable : Bool
  configurable : Bool
  deriving DecidableEq, Repr

/-- A JavaScript object: own properties, then the prototype chain's
properties flattened in lookup order. -/
structure JsObj where
  own : List (String × PropDesc)
  protoChain : List (String × PropDesc)
  deriving DecidableEq, Repr

def assocFirst (l : List (String × PropDesc)) (k : String) : Option PropDesc :=
  match l with
  | [] => none
  | (k', d) :: r => if k' = k then some d else assocFirst r k

/-- Property lookup through the prototype chain. -/
def JsObj.getProp (o : JsObj) (k : String) : Option PropDesc :=
  match assocFirst o.own k with
  | some d => some d
  | none => assocFirst o.protoChain k

/-- The keys `for...in`/`Object.keys` style enumeration sees among the own
properties. -/
def JsObj.enumerableOwnKeys (o : JsObj) : List String :=
  (o.own.filter (fun p => p.2.enumerable)).map (fun p => p.1)

/-- `createCompiledSchema(schema)`: `Object.create(proto,
Object.getOwnPropertyDescriptors(schema))` where `proto =
Object.create(Object.getPrototypeOf(schema), { _compiled: { value:
compiled, enumerable: false, writable: false, configurable: false } })`. -/
def createCompiledSchema (schema : JsObj) (compiledId : Nat) : JsObj :=
  { own := schema.own
    protoChain :=
      ("_compiled",
        { value := .checker compiledId
          enumerable := false
          writable := false
          configurable := false }) :: schema.protoChain }

/-! ## Concrete schemas and values used by the individual theorems -/

/-- An `objectid`-format string node (what `Utils.ObjectId()` returns,
with its thunk default). -/
def oidNode : Schema :=
  .node (some "objectid") (some "string") none (some "MongoDB ObjectId")
    none none (.genD (.oidThunk false)) none none

/-- `Type.Object({ _id: Utils.ObjectId() })`. -/
def schemaUser : Schema :=
  .node none (some "object") none none
    (some (.cons "_id" oidNode .nil)) none .noneD none none

/-- `{ _id: ObjectId('507f1f77bcf86cd799439011') }`: an input whose `_id`
is already an ObjectId instance. -/
def valueUser : Value :=
  .vobj (.cons "_id" (.oid ⟨"507f1f77bcf86cd799439011"⟩) .nil)

/-- `Type.Array(Utils.ObjectId())` used as the root schema. -/
def schemaRootArray : Schema :=
  .node none (some "array") none none none (some oidNode) .noneD none none

/-- `Type.Object({ contacts: Type.Array(Utils.ObjectId()) })`. -/
def schemaContacts : Schema :=
  .node none (some "object") none none
    (some (.cons "contacts" schemaRootArray .nil)) none .noneD none none

/-- `{ contacts: ['507f1f77bcf86cd799439011', 'not-a-valid-objectid'] }`:
one validly-formatted 24-hex element, one malformed element. -/
def valueContacts : Value :=
  .vobj (.cons "contacts"
    (.varr (.cons (.vstr "507f1f77bcf86cd799439011")
      (.cons (.vstr "not-a-valid-objectid") .nil))) .nil)

/-- A concrete plain JavaScript schema object for the compiled-schema
wrapper theorems: one enumerable own property, an empty prototype chain. -/
def jsSchema0 : JsObj :=
  { own := [("type", PropDesc.mk (.val (.vstr "object")) true true true)]
    protoChain := [] }

/-- The installed default annotation of a factory result, when
construction succeeded. -/
def okDflt : Except String Schema → Option SDefault
  | .ok s => some s.dflt
  | .error _ => none

/-- A concrete parse-exception payload for the `Decode` catch block. -/
def decodeErr0 : ParseErr :=
  { schemaErrorMessage := none
    message := some "Expected string"
    path := "/name"
    value := .vnum 5 }

end TBU

namespace TBU

/-! # Unfolding lemmas for the mutual traversal -/

theorem traverseOid_node (fmt ty pat desc : Option String)
    (props : Option SProps) (items : Option Schema) (dflt : SDefault)
    (mn mx : Option Int) (path : String) :
    traverseOid (.node fmt ty pat desc props items dflt mn mx) path =
      (if fmt = some "objectid" then [path]
       else traversePropsIf ty props path ++ traverseItemsIf ty items path) := by
  rw [traverseOid]

theorem traverseOidProps_nil (path : String) :
    traverseOidProps .nil path = [] := by
  rw [traverseOidProps]

theorem traverseOidProps_cons (key : String) (prop : Schema) (rest : SProps)
    (path : String) :
    traverseOidProps (.cons key prop rest) path =
      traverseOid prop (if path = "" then key else path ++ "." ++ key)
        ++ traverseOidProps rest path := by
  rw [traverseOidProps]

theorem traversePropsIf_def (ty : Option String) (props : Option SProps)
    (path : String) :
    traversePropsIf ty props path =
      (if ty = some "object" then
        match props with
        | some ps => traverseOidProps ps path
        | none => []
      else []) := by
  rw [traversePropsIf.eq_def]

theorem traverseItemsIf_def (ty : Option String) (items : Option Schema)
    (path : String) :
    traverseItemsIf ty items path =
      (if ty = some "array" then
        match items with
        | some s => traverseOid s (path ++ ".*")
        | none => []
      else []) := by
  rw [traverseItemsIf.eq_def]

/-! # Element and member algebra -/

theorem VList.get?_set_self : ∀ (l : VList) (i : Nat) (v x : Value),
    l.get? i = some v → (l.set i x).get? i = some x
  | .nil, i, v, x, h => by simp [VList.get?] at h
  | .cons y ys, 0, v, x, _ => rfl
  | .cons y ys, n + 1, v, x, h =>
    VList.get?_set_self ys n v x (by simpa [VList.get?] using h)

theorem VList.get?_set_ne : ∀ (l : VList) (i j : Nat) (x : Value), i ≠ j →
    (l.set i x).get? j = l.get? j
  | .nil, _, _, _, _ => rfl
  | .cons y ys, 0, 0, x, h => absurd rfl h
  | .cons y ys, 0, j + 1, x, _ => rfl
  | .cons y ys, n + 1, 0, x, _ => rfl
  | .cons y ys, n + 1, j + 1, x, h =>
    VList.get?_set_ne ys n j x (fun hn => h (by rw [hn]))

theorem VList.set_set_self : ∀ (l : VList) (i : Nat) (x y : Value),
    (l.set i x).set i y = l.set i y
  | .nil, _, _, _ => rfl
  | .cons z zs, 0, x, y => rfl
  | .cons z zs, n + 1, x, y => by
    simp [VList.set, VList.set_set_self zs n x y]

theorem VList.set_set_comm : ∀ (l : VList) (i j : Nat) (x y : Value), i ≠ j →
    (l.set i x).set j y = (l.set j y).set i x
  | .nil, _, _, _, _, _ => rfl
  | .cons z zs, 0, 0, x, y, h => absurd rfl h
  | .cons z zs, 0, j + 1, x, y, _ => rfl
  | .cons z zs, n + 1, 0, x, y, _ => rfl
  | .cons z zs, n + 1, j + 1, x, y, h => by
    simp [VList.set, VList.set_set_comm zs n j x y (fun hn => h (by rw [hn]))]

theorem VList.set_self : ∀ (l : VList) (i : Nat) (v : Value),
    l.get? i = some v → l.set i v = l
  | .nil, _, _, _ => rfl
  | .cons y ys, 0, v, h => by
    simp only [VList.get?, Option.some.injEq] at h
    simp [VList.set, h]
  | .cons y ys, n + 1, v, h => by
    simp only [VList.get?] at h
    simp [VList.set, VList.set_self ys n v h]

theorem VList.get?_map (h : Value → Value) : ∀ (l : VList) (i : Nat),
    (l.map h).get? i = (l.get? i).map h
  | .nil, _ => rfl
  | .cons y ys, 0 => rfl
  | .cons y ys, n + 1 => VList.get?_map h ys n

theorem VList.map_set (h : Value → Value) : ∀ (l : VList) (i : Nat) (x : Value),
    (l.set i x).map h = (l.map h).set i (h x)
  | .nil, _, _ => rfl
  | .cons y ys, 0, x => rfl
  | .cons y ys, n + 1, x => by
    simp [VList.set, VList.map, VList.map_set h ys n x]

theorem VList.map_comm_pointwise (h g : Value → Value)
    (hp : ∀ x, h (g x) = g (h x)) : ∀ (l : VList),
    (l.map g).map h = (l.map h).map g
  | .nil => rfl
  | .cons y ys => by
    simp [VList.map, hp y, VList.map_comm_pointwise h g hp ys]

theorem VProps.getp_set_self : ∀ (l : VProps) (k : String) (v x : Value),
    l.get? k = some v → (l.set k x).get? k = some x
  | .nil, k, v, x, h => by simp [VProps.get?] at h
  | .cons k2 v2 r, k, v, x, h => by
    by_cases hk : k2 = k
    · simp [VProps.set, VProps.get?, hk]
    · simp only [VProps.get?, if_neg hk] at h
      simp [VProps.set, VProps.get?, hk, VProps.getp_set_self r k v x h]

theorem VProps.getp_set_ne : ∀ (l : VProps) (k k' : String) (x : Value),
    k ≠ k' → (l.set k x).get? k' = l.get? k'
  | .nil, _, _, _, _ => rfl
  | .cons k2 v2 r, k, k', x, h => by
    by_cases hk : k2 = k
    · subst hk
      simp [VProps.set, VProps.get?, h]
    · simp [VProps.set, VProps.get?, hk, VProps.getp_set_ne r k k' x h]

theorem VProps.setp_set_self : ∀ (l : VProps) (k : String) (x y : Value),
    (l.set k x).set k y = l.set k y
  | .nil, _, _, _ => rfl
  | .cons k2 v2 r, k, x, y => by
    by_cases hk : k2 = k
    · simp [VProps.set, hk]
    · simp [VProps.set, hk, VProps.setp_set_self r k x y]

theorem VProps.setp_set_comm : ∀ (l : VProps) (k k' : String) (x y : Value),
    k ≠ k' → (l.set k x).set k' y = (l.set k' y).set k x
  | .nil, _, _, _, _, _ => rfl
  | .cons k2 v2 r, k, k', x, y, h => by
    by_cases hk : k2 = k
    · subst hk
      simp [VProps.set, h, Ne.symm h, if_pos rfl]
    · by_cases hk' : k2 = k'
      · subst hk'
        simp [VProps.set, hk, if_pos rfl]
      · simp [VProps.set, hk, hk', VProps.setp_set_comm r k k' x y h]

theorem VProps.setp_self : ∀ (l : VProps) (k : String) (v : Value),
    l.get? k = some v → l.set k v = l
  | .nil, _, _, _ => rfl
  | .cons k2 v2 r, k, v, h => by
    by_cases hk : k2 = k
    · subst hk
      have h2 : v2 = v := by simpa [VProps.get?] using h
      subst h2
      simp [VProps.set]
    · simp only [VProps.get?, if_neg hk] at h
      simp [VProps.set, hk, VProps.setp_self r k v h]

theorem VProps.setp_absent : ∀ (l : VProps) (k : String) (x : Value),
    l.get? k = none → l.set k x = l
  | .nil, _, _, _ => rfl
  | .cons k2 v2 r, k, x, h => by
    by_cases hk : k2 = k
    · simp [VProps.get?, hk] at h
    · simp only [VProps.get?, if_neg hk] at h
      simp [VProps.set, hk, VProps.setp_absent r k x h]

theorem VList.set_absent : ∀ (l : VList) (i : Nat) (x : Value),
    l.get? i = none → l.set i x = l
  | .nil, _, _, _ => rfl
  | .cons y ys, 0, x, h => by simp [VList.get?] at h
  | .cons y ys, n + 1, x, h => by
    simp only [VList.get?] at h
    simp [VList.set, VList.set_absent ys n x h]

/-! # Member lemmas on values -/

theorem Value.memGet_memSet_self (t : Value) (k : String) (m x : Value)
    (h : t.memGet k = some m) : (t.memSet k x).memGet k = some x := by
  cases t with
  | vobj l => exact VProps.getp_set_self l k m x h
  | varr l =>
    simp only [Value.memGet, Value.memSet] at *
    cases hn : k.toNat? with
    | none => simp [hn] at h
    | some i =>
      simp only [hn] at h ⊢
      by_cases hc : toString i = k
      · simp only [if_pos hc] at h ⊢
        simp [Value.memGet, hn, hc, VList.get?_set_self l i m x h]
      · simp [if_neg hc] at h
  | vnull => simp [Value.memGet] at h
  | vundef => simp [Value.memGet] at h
  | vbool b => simp [Value.memGet] at h
  | vnum n => simp [Value.memGet] at h
  | vstr s => simp [Value.memGet] at h
  | oid o => simp [Value.memGet] at h

theorem Value.memSet_absent (t : Value) (k : String) (x : Value)
    (h : t.memGet k = none) : t.memSet k x = t := by
  cases t with
  | vobj l =>
    simp only [Value.memGet] at h
    simp only [Value.memSet]
    rw [VProps.setp_absent l k x h]
  | varr l =>
    simp only [Value.memGet, Value.memSet] at *
    cases hn : k.toNat? with
    | none => simp [hn]
    | some i =>
      simp only [hn] at h ⊢
      by_cases hc : toString i = k
      · simp only [if_pos hc] at h ⊢
        rw [VList.set_absent l i x h]
      · simp [if_neg hc]
  | vnull => rfl
  | vundef => rfl
  | vbool b => rfl
  | vnum n => rfl
  | vstr s => rfl
  | oid o => rfl

theorem Value.memGet_memSet_ne (t : Value) (k k' : String) (x : Value)
    (h : k ≠ k') : (t.memSet k x).memGet k' = t.memGet k' := by
  cases t with
  | vobj l => exact VProps.getp_set_ne l k k' x h
  | varr l =>
    simp only [Value.memGet, Value.memSet]
    cases hn : k.toNat? with
    | none => simp
    | some i =>
      by_cases hc : toString i = k
      · simp only [if_pos hc]
        cases hn' : k'.toNat? with
        | none => simp
        | some j =>
          by_cases hc' : toString j = k'
          · simp only [if_pos hc', Value.memGet]
            have hij : i ≠ j := by
              intro he
              exact h (by rw [← hc, ← hc', he])
            rw [VList.get?_set_ne l i j x hij]
          · simp [if_neg hc']
      · simp [if_neg hc]
  | vnull => rfl
  | vundef => rfl
  | vbool b => rfl
  | vnum n => rfl
  | vstr s => rfl
  | oid o => rfl

theorem Value.memSet_memSet_self (t : Value) (k : String) (x y : Value) :
    (t.memSet k x).memSet k y = t.memSet k y := by
  cases t with
  | vobj l => simp [Value.memSet, VProps.setp_set_self]
  | varr l =>
    simp only [Value.memSet]
    cases hn : k.toNat? with
    | none => simp [hn]
    | some i =>
      by_cases hc : toString i = k
      · simp [hn, if_pos hc, VList.set_set_self]
      · simp [hn, if_neg hc]
  | vnull => rfl
  | vundef => rfl
  | vbool b => rfl
  | vnum n => rfl
  | vstr s => rfl
  | oid o => rfl

theorem Value.memSet_memSet_comm (t : Value) (k k' : String) (x y : Value)
    (h : k ≠ k') : (t.memSet k x).memSet k' y = (t.memSet k' y).memSet k x := by
  cases t with
  | vobj l => simp [Value.memSet, VProps.setp_set_comm l k k' x y h]
  | varr l =>
    simp only [Value.memSet]
    cases hn : k.toNat? with
    | none =>
      cases hn' : k'.toNat? with
      | none => simp [hn, hn']
      | some j =>
        by_cases hc' : toString j = k'
        · simp [hn, hn', if_pos hc']
        · simp [hn, hn', if_neg hc']
    | some i =>
      by_cases hc : toString i = k
      · cases hn' : k'.toNat? with
        | none => simp [hn, hn', if_pos hc]
        | some j =>
          by_cases hc' : toString j = k'
          · have hij : i ≠ j := by
              intro he
              exact h (by rw [← hc, ← hc', he])
            simp [hn, hn', if_pos hc, if_pos hc', VList.set_set_comm l i j x y hij]
          · simp [hn, hn', if_pos hc, if_neg hc']
      · cases hn' : k'.toNat? with
        | none => simp [hn, hn', if_neg hc]
        | some j =>
          by_cases hc' : toString j = k'
          · simp [hn, hn', if_neg hc, if_pos hc']
          · simp [hn, hn', if_neg hc, if_neg hc']
  | vnull => rfl
  | vundef => rfl
  | vbool b => rfl
  | vnum n => rfl
  | vstr s => rfl
  | oid o => rfl

theorem Value.memSet_self (t : Value) (k : String) (m : Value)
    (h : t.memGet k = some m) : t.memSet k m = t := by
  cases t with
  | vobj l =>
    simp only [Value.memSet]
    rw [VProps.setp_self l k m h]
  | varr l =>
    simp only [Value.memGet, Value.memSet] at *
    cases hn : k.toNat? with
    | none => simp [hn] at h
    | some i =>
      simp only [hn] at h ⊢
      by_cases hc : toString i = k
      · simp only [if_pos hc] at h ⊢
        rw [VList.set_self l i m h]
      · simp [if_neg hc] at h
  | vnull => simp [Value.memGet] at h
  | vundef => simp [Value.memGet] at h
  | vbool b => simp [Value.memGet] at h
  | vnum n => simp [Value.memGet] at h
  | vstr s => simp [Value.memGet] at h
  | oid o => simp [Value.memGet] at h

theorem Value.truthy_memSet (t : Value) (k : String) (x : Value) :
    (t.memSet k x).truthy = t.truthy := by
  cases t with
  | varr l =>
    simp only [Value.memSet]
    cases k.toNat? with
    | none => rfl
    | some i =>
      by_cases hc : toString i = k
      · simp [hc, Value.truthy]
      · simp [hc, Value.truthy]
  | vobj l => rfl
  | vnull => rfl
  | vundef => rfl
  | vbool b => rfl
  | vnum n => rfl
  | vstr s => rfl
  | oid o => rfl

theorem Value.leafLike_memGet (t : Value) (k : String)
    (h : t.leafLike = true) : t.memGet k = none := by
  cases t <;> first | rfl | simp [Value.leafLike] at h

/-! # Structural lemmas about the walker -/

theorem applyAct_nil (act : Value → Option Value) (t : Value) :
    applyAct act [] t = t := rfl

theorem applyAct_cons (act : Value → Option Value) (f : String)
    (rest : List String) (t : Value) :
    applyAct act (f :: rest) t =
      (if f = "*" then
        match t with
        | .varr l => .varr (l.map (applyAct act rest))
        | _ =>
          match t.memGet "items" with
          | some (.varr l) => t.memSet "items" (.varr (l.map (applyAct act rest)))
          | _ => t
      else if rest.isEmpty then
        match t.memGet f with
        | some m =>
          match act m with
          | some m' => t.memSet f m'
          | none => t
        | none => t
      else
        match t.memGet f with
        | some m => if m.truthy then t.memSet f (applyAct act rest m) else t
        | none => t) := rfl

theorem applyAct_leaf (act : Value → Option Value) (segs : List String)
    (t : Value) (h : t.leafLike = true) : applyAct act segs t = t := by
  cases segs with
  | nil => rfl
  | cons f rest =>
    rw [applyAct_cons]
    by_cases hf : f = "*"
    · rw [if_pos hf]
      cases t <;> simp_all [Value.leafLike, Value.memGet]
    · rw [if_neg hf]
      simp only [Value.leafLike_memGet t f h]
      split <;> rfl

theorem Value.tag_memSet (t : Value) (k : String) (x : Value) :
    (t.memSet k x).tag = t.tag := by
  cases t with
  | varr l =>
    simp only [Value.memSet]
    cases k.toNat? with
    | none => rfl
    | some i =>
      by_cases hc : toString i = k
      · simp [hc, Value.tag]
      · simp [hc, Value.tag]
  | vobj l => rfl
  | vnull => rfl
  | vundef => rfl
  | vbool b => rfl
  | vnum n => rfl
  | vstr s => rfl
  | oid o => rfl

theorem tag_applyAct (act : Value → Option Value) (segs : List String)
    (t : Value) : (applyAct act segs t).tag = t.tag := by
  cases segs with
  | nil => rfl
  | cons f rest =>
    rw [applyAct_cons]
    split
    · split
      · rfl
      · split
        · exact Value.tag_memSet _ _ _
        · rfl
    · split
      · split
        · split
          · exact Value.tag_memSet _ _ _
          · rfl
        · rfl
      · split
        · split
          · exact Value.tag_memSet _ _ _
          · rfl
        · rfl

theorem tag_varr_inv (x : Value) (h : x.tag = 6) : ∃ l, x = .varr l := by
  cases x <;> simp [Value.tag] at h ⊢

theorem tag_vobj_inv (x : Value) (h : x.tag = 7) : ∃ l, x = .vobj l := by
  cases x <;> simp [Value.tag] at h ⊢

theorem truthy_applyAct (act : Value → Option Value) (segs : List String)
    (t : Value) : (applyAct act segs t).truthy = t.truthy := by
  cases t with
  | varr l =>
    obtain ⟨l', hl⟩ := tag_varr_inv _ (tag_applyAct act segs (.varr l))
    rw [hl]; rfl
  | vobj l =>
    obtain ⟨l', hl⟩ := tag_vobj_inv _ (tag_applyAct act segs (.vobj l))
    rw [hl]; rfl
  | vnull => rw [applyAct_leaf act segs .vnull rfl]
  | vundef => rw [applyAct_leaf act segs .vundef rfl]
  | vbool b => rw [applyAct_leaf act segs (.vbool b) rfl]
  | vnum n => rw [applyAct_leaf act segs (.vnum n) rfl]
  | vstr s => rw [applyAct_leaf act segs (.vstr s) rfl]
  | oid o => rw [applyAct_leaf act segs (.oid o) rfl]

theorem act_stable (act act2 : Value → Option Value)
    (hArr : ∀ l, act (.varr l) = none) (hObj : ∀ pr, act (.vobj pr) = none)
    (segs : List String) (t : Value) (h : act t = none) :
    act (applyAct act2 segs t) = none := by
  cases t with
  | varr l =>
    obtain ⟨l', hl⟩ := tag_varr_inv _ (tag_applyAct act2 segs (.varr l))
    rw [hl]; exact hArr l'
  | vobj l =>
    obtain ⟨l', hl⟩ := tag_vobj_inv _ (tag_applyAct act2 segs (.vobj l))
    rw [hl]; exact hObj l'
  | vnull => rw [applyAct_leaf act2 segs .vnull rfl]; exact h
  | vundef => rw [applyAct_leaf act2 segs .vundef rfl]; exact h
  | vbool b => rw [applyAct_leaf act2 segs (.vbool b) rfl]; exact h
  | vnum n => rw [applyAct_leaf act2 segs (.vnum n) rfl]; exact h
  | vstr s => rw [applyAct_leaf act2 segs (.vstr s) rfl]; exact h
  | oid o => rw [applyAct_leaf act2 segs (.oid o) rfl]; exact h

/-! # The walker as member edits -/

theorem applyAct_cons_star (act : Value → Option Value) (rest : List String)
    (t : Value) :
    applyAct act ("*" :: rest) t =
      (match t with
       | .varr l => .varr (l.map (applyAct act rest))
       | _ => editKey "items" (starPhi act rest) t) := by
  rw [applyAct_cons, if_pos rfl]
  cases t with
  | varr l => rfl
  | vobj l =>
    show (match (Value.vobj l).memGet "items" with
      | some (.varr l') => (Value.vobj l).memSet "items" (.varr (l'.map (applyAct act rest)))
      | _ => Value.vobj l) = _
    rcases hm : (Value.vobj l).memGet "items" with _ | m
    · simp [editKey, hm]
    · cases m with
      | varr l' => simp [editKey, hm, starPhi]
      | vnull => simp [editKey, hm, starPhi, Value.memSet_self _ _ _ hm]
      | vundef => simp [editKey, hm, starPhi, Value.memSet_self _ _ _ hm]
      | vbool b => simp [editKey, hm, starPhi, Value.memSet_self _ _ _ hm]
      | vnum n => simp [editKey, hm, starPhi, Value.memSet_self _ _ _ hm]
      | vstr s => simp [editKey, hm, starPhi, Value.memSet_self _ _ _ hm]
      | oid o => simp [editKey, hm, starPhi, Value.memSet_self _ _ _ hm]
      | vobj pr => simp [editKey, hm, starPhi, Value.memSet_self _ _ _ hm]
  | vnull => rfl
  | vundef => rfl
  | vbool b => rfl
  | vnum n => rfl
  | vstr s => rfl
  | oid o => rfl

theorem applyAct_cons_term (act : Value → Option Value) (f : String)
    (t : Value) (hf : f ≠ "*") :
    applyAct act [f] t = editKey f (termPhi act) t := by
  rw [applyAct_cons, if_neg hf]
  show (match t.memGet f with
    | some m =>
      match act m with
      | some m' => t.memSet f m'
      | none => t
    | none => t) = _
  rcases hm : t.memGet f with _ | m
  · simp [editKey, hm]
  · rcases ha : act m with _ | m'
    · simp [editKey, hm, termPhi, ha, Value.memSet_self _ _ _ hm]
    · simp [editKey, hm, termPhi, ha]

theorem applyAct_cons_step (act : Value → Option Value) (f : String)
    (rest : List String) (t : Value) (hf : f ≠ "*") (hr : rest ≠ []) :
    applyAct act (f :: rest) t = editKey f (stepPhi act rest) t := by
  rw [applyAct_cons, if_neg hf]
  have hre : rest.isEmpty = false := by
    cases rest with
    | nil => exact absurd rfl hr
    | cons a b => rfl
  rw [hre]
  show (match t.memGet f with
    | some m => if m.truthy then t.memSet f (applyAct act rest m) else t
    | none => t) = _
  rcases hm : t.memGet f with _ | m
  · simp [editKey, hm]
  · by_cases ht : m.truthy
    · simp [editKey, hm, stepPhi, ht]
    · simp [editKey, hm, stepPhi, ht, Value.memSet_self _ _ _ hm]

/-! # editKey algebra -/

theorem editKey_comm_ne (k k' : String) (φ ψ : Value → Value) (t : Value)
    (h : k ≠ k') : editKey k φ (editKey k' ψ t) = editKey k' ψ (editKey k φ t) := by
  rcases hm : t.memGet k with _ | m <;> rcases hm' : t.memGet k' with _ | m'
  · simp [editKey, hm, hm']
  · simp [editKey, hm, hm', Value.memGet_memSet_ne t k' k (ψ m') (Ne.symm h)]
  · simp [editKey, hm, hm', Value.memGet_memSet_ne t k k' (φ m) h]
  · simp only [editKey, hm, hm',
      Value.memGet_memSet_ne t k' k (ψ m') (Ne.symm h),
      Value.memGet_memSet_ne t k k' (φ m) h]
    exact Value.memSet_memSet_comm t k' k (ψ m') (φ m) (Ne.symm h)

theorem editKey_comm_same (k : String) (φ ψ : Value → Value) (t : Value)
    (hcomm : ∀ m, t.memGet k = some m → φ (ψ m) = ψ (φ m)) :
    editKey k φ (editKey k ψ t) = editKey k ψ (editKey k φ t) := by
  unfold editKey
  rcases hm : t.memGet k with _ | m
  · simp [hm]
  · simp only [hm]
    rw [Value.memGet_memSet_self t k m (ψ m) hm,
      Value.memGet_memSet_self t k m (φ m) hm]
    simp only [Value.memSet_memSet_self]
    rw [hcomm m hm]

theorem editKey_fusion (k : String) (φ1 φ2 : Value → Value) (t : Value)
    (hfuse : ∀ m, t.memGet k = some m → φ2 (φ1 m) = φ2 m) :
    editKey k φ2 (editKey k φ1 t) = editKey k φ2 t := by
  unfold editKey
  rcases hm : t.memGet k with _ | m
  · simp [hm]
  · simp only [hm]
    rw [Value.memGet_memSet_self t k m (φ1 m) hm]
    simp only [Value.memSet_memSet_self]
    rw [hfuse m hm]

/-! # Small helpers for the commutation argument -/

theorem editKey_leaf (k : String) (φ : Value → Value) (t : Value)
    (h : t.leafLike = true) : editKey k φ t = t := by
  unfold editKey
  rw [Value.leafLike_memGet t k h]

theorem tag_editKey (k : String) (φ : Value → Value) (t : Value) :
    (editKey k φ t).tag = t.tag := by
  unfold editKey
  rcases hm : t.memGet k with _ | m
  · rfl
  · exact Value.tag_memSet t k (φ m)

theorem leafLike_tag_ne6 (x : Value) (h : x.leafLike = true) : x.tag ≠ 6 := by
  cases x <;> simp [Value.tag, Value.leafLike] at h ⊢

theorem leafLike_tag_ne7 (x : Value) (h : x.leafLike = true) : x.tag ≠ 7 := by
  cases x <;> simp [Value.tag, Value.leafLike] at h ⊢

theorem starPhi_varr (act : Value → Option Value) (rest : List String)
    (l : VList) :
    starPhi act rest (.varr l) = .varr (l.map (applyAct act rest)) := rfl

theorem starPhi_nonarr (act : Value → Option Value) (rest : List String)
    (m : Value) (h : m.tag ≠ 6) : starPhi act rest m = m := by
  cases m <;> first | rfl | (exact absurd rfl h)

theorem starPhi_eq_star (act : Value → Option Value) (rest : List String)
    (x : Value) (h : x.tag = 6) :
    starPhi act rest x = applyAct act ("*" :: rest) x := by
  obtain ⟨l, hl⟩ := tag_varr_inv x h
  subst hl
  rw [starPhi_varr, applyAct_cons_star]

theorem applyAct_cons_star_nonarr (act : Value → Option Value)
    (rest : List String) (t : Value) (h : t.tag ≠ 6) :
    applyAct act ("*" :: rest) t = editKey "items" (starPhi act rest) t := by
  rw [applyAct_cons_star]
  cases t <;> first | rfl | (exact absurd rfl h)

theorem applyAct_star_varr (act : Value → Option Value) (rest : List String)
    (l : VList) :
    applyAct act ("*" :: rest) (.varr l) = .varr (l.map (applyAct act rest)) := by
  rw [applyAct_cons_star]

theorem Value.memGet_varr_map (h : Value → Value) (l : VList) (k : String) :
    (Value.varr (l.map h)).memGet k = ((Value.varr l).memGet k).map h := by
  simp only [Value.memGet]
  cases k.toNat? with
  | none => rfl
  | some i =>
    by_cases hc : toString i = k
    · simp [hc, VList.get?_map]
    · simp [hc]

theorem truthy_phi (act : Value → Option Value) (ha : ActGood act)
    (w : Nat) (φ : Value → Value) (hφ : IsPhi act w φ) (m : Value) :
    (φ m).truthy = m.truthy := by
  cases hφ with
  | term =>
    unfold termPhi
    rcases hm : act m with _ | m'
    · rfl
    · obtain ⟨_, h2, _, h4⟩ := ha.fire m m' hm
      rw [h2, h4]
  | step rest =>
    unfold stepPhi
    by_cases ht : m.truthy
    · rw [if_pos ht, truthy_applyAct]
    · rw [if_neg ht]
  | star rest =>
    by_cases h6 : m.tag = 6
    · obtain ⟨l, hl⟩ := tag_varr_inv m h6
      subst hl
      rfl
    · rw [starPhi_nonarr act rest m h6]

theorem nonarr_phi (act : Value → Option Value) (ha : ActGood act)
    (w : Nat) (φ : Value → Value) (hφ : IsPhi act w φ) (m : Value)
    (h : m.tag ≠ 6) : (φ m).tag ≠ 6 := by
  cases hφ with
  | term =>
    unfold termPhi
    rcases hm : act m with _ | m'
    · exact h
    · exact leafLike_tag_ne6 m' (ha.fire m m' hm).2.2.1
  | step rest =>
    unfold stepPhi
    by_cases ht : m.truthy
    · rw [if_pos ht, tag_applyAct]
      exact h
    · rw [if_neg ht]
      exact h
  | star rest =>
    rw [starPhi_nonarr act rest m h]
    exact h

/-! # Commutation of member transformations -/

theorem applyAct_phi_comm (act : Value → Option Value) (ha : ActGood act)
    (n : Nat) (ihc : CommUpTo act n) (w : Nat) (φ : Value → Value)
    (hφ : IsPhi act w φ) (p2 : List String) (hlen : p2.length + w ≤ n)
    (m : Value) : applyAct act p2 (φ m) = φ (applyAct act p2 m) := by
  cases hφ with
  | term =>
    rcases hm : act m with _ | m'
    · have hst := act_stable act act ha.arr ha.obj p2 m hm
      simp only [termPhi, hm, hst]
    · obtain ⟨h1, _, h3, _⟩ := ha.fire m m' hm
      simp only [termPhi, hm, applyAct_leaf act p2 m h1,
        applyAct_leaf act p2 m' h3]
  | step rest =>
    by_cases ht : m.truthy
    · simp only [stepPhi, truthy_applyAct, if_pos ht]
      exact ihc p2 rest m (by simpa using hlen)
    · simp only [stepPhi, truthy_applyAct, if_neg ht]
  | star rest =>
    by_cases h6 : m.tag = 6
    · obtain ⟨l, hl⟩ := tag_varr_inv m h6
      subst hl
      rw [starPhi_varr, ← applyAct_star_varr,
        ihc p2 ("*" :: rest) (.varr l) (by simpa using hlen),
        ← starPhi_eq_star act rest _ (by rw [tag_applyAct]; rfl)]
    · rw [starPhi_nonarr act rest m h6,
        starPhi_nonarr act rest _ (by rw [tag_applyAct]; exact h6)]

theorem step_phi_comm (act : Value → Option Value) (ha : ActGood act)
    (n : Nat) (ihc : CommUpTo act n) (pr2 : List String) (w : Nat)
    (φ : Value → Value) (hφ : IsPhi act w φ) (hlen : pr2.length + w ≤ n)
    (m : Value) : stepPhi act pr2 (φ m) = φ (stepPhi act pr2 m) := by
  by_cases ht : m.truthy
  · simp only [stepPhi, truthy_phi act ha w φ hφ m, if_pos ht]
    exact applyAct_phi_comm act ha n ihc w φ hφ pr2 hlen m
  · simp only [stepPhi, truthy_phi act ha w φ hφ m, if_neg ht]

theorem term_star_comm (act : Value → Option Value) (ha : ActGood act)
    (r : List String) (m : Value) :
    termPhi act (starPhi act r m) = starPhi act r (termPhi act m) := by
  by_cases h6 : m.tag = 6
  · obtain ⟨l, hl⟩ := tag_varr_inv m h6
    subst hl
    rw [starPhi_varr]
    simp only [termPhi, ha.arr]
    rfl
  · rw [starPhi_nonarr act r m h6,
      starPhi_nonarr act r (termPhi act m)
        (nonarr_phi act ha 0 (termPhi act) IsPhi.term m h6)]

theorem star_star_comm (act : Value → Option Value) (n : Nat)
    (ihc : CommUpTo act n) (pr2 qr2 : List String)
    (hlen : pr2.length + qr2.length ≤ n) (m : Value) :
    starPhi act pr2 (starPhi act qr2 m) = starPhi act qr2 (starPhi act pr2 m) := by
  by_cases h6 : m.tag = 6
  · obtain ⟨l, hl⟩ := tag_varr_inv m h6
    subst hl
    simp only [starPhi_varr]
    rw [VList.map_comm_pointwise (applyAct act pr2) (applyAct act qr2)
      (fun x => ihc pr2 qr2 x hlen) l]
  · rw [starPhi_nonarr act qr2 m h6, starPhi_nonarr act pr2 m h6,
      starPhi_nonarr act qr2 m h6]

theorem phi_phi_comm (act : Value → Option Value) (ha : ActGood act)
    (n : Nat) (ihc : CommUpTo act n) (wp : Nat) (φp : Value → Value)
    (wq : Nat) (φq : Value → Value) (hp : IsPhi act wp φp)
    (hq : IsPhi act wq φq) (hlen : wp + wq ≤ n) (m : Value) :
    φp (φq m) = φq (φp m) := by
  cases hp with
  | step pr2 =>
    exact step_phi_comm act ha n ihc pr2 wq φq hq (by omega) m
  | term =>
    cases hq with
    | term => rfl
    | step qr2 =>
      exact (step_phi_comm act ha n ihc qr2 0 (termPhi act) IsPhi.term
        (by omega) m).symm
    | star r => exact term_star_comm act ha r m
  | star r =>
    cases hq with
    | term => exact (term_star_comm act ha r m).symm
    | step qr2 =>
      exact (step_phi_comm act ha n ihc qr2 (r.length + 1) (starPhi act r)
        (IsPhi.star r) (by omega) m).symm
    | star r' => exact star_star_comm act n ihc r r' (by omega) m

/-! # The walker commutes with itself -/

theorem memGet_varr_inv (l : VList) (k : String) (v : Value)
    (h : (Value.varr l).memGet k = some v) :
    ∃ i, k.toNat? = some i ∧ toString i = k ∧ l.get? i = some v := by
  simp only [Value.memGet] at h
  cases hn : k.toNat? with
  | none => rw [hn] at h; simp at h
  | some i =>
    simp only [hn] at h
    by_cases hc : toString i = k
    · rw [if_pos hc] at h
      exact ⟨i, rfl, hc, h⟩
    · rw [if_neg hc] at h
      simp at h

theorem comm_star_edit (act : Value → Option Value) (ha : ActGood act)
    (n : Nat) (ihc : CommUpTo act n) (pr : List String) (k : String)
    (wq : Nat) (φq : Value → Value) (hq : IsPhi act wq φq)
    (hlen : pr.length + 1 + wq ≤ n) (t : Value) :
    applyAct act ("*" :: pr) (editKey k φq t) =
      editKey k φq (applyAct act ("*" :: pr) t) := by
  by_cases h6 : t.tag = 6
  · obtain ⟨l, hl⟩ := tag_varr_inv t h6
    subst hl
    rcases hm : (Value.varr l).memGet k with _ | li
    · have he : editKey k φq (Value.varr l) = Value.varr l := by
        unfold editKey
        rw [hm]
      rw [he, applyAct_star_varr]
      have hm2 : (Value.varr (l.map (applyAct act pr))).memGet k = none := by
        rw [Value.memGet_varr_map, hm]
        rfl
      unfold editKey
      rw [hm2]
    · obtain ⟨i, hni, hci, hgi⟩ := memGet_varr_inv l k li hm
      have hset : ∀ x, (Value.varr l).memSet k x = Value.varr (l.set i x) := by
        intro x
        simp [Value.memSet, hni, hci]
      have hsetm : ∀ x, (Value.varr (l.map (applyAct act pr))).memSet k x =
          Value.varr ((l.map (applyAct act pr)).set i x) := by
        intro x
        simp [Value.memSet, hni, hci]
      have he : editKey k φq (Value.varr l) = Value.varr (l.set i (φq li)) := by
        unfold editKey
        simp only [hm]
        rw [hset]
      have hm2 : (Value.varr (l.map (applyAct act pr))).memGet k =
          some (applyAct act pr li) := by
        rw [Value.memGet_varr_map, hm]
        rfl
      rw [he, applyAct_star_varr act pr (l.set i (φq li)),
        applyAct_star_varr act pr l]
      unfold editKey
      simp only [hm2]
      rw [hsetm, VList.map_set (applyAct act pr) l i (φq li)]
      rw [applyAct_phi_comm act ha n ihc wq φq hq pr (by omega) li]
  · rw [applyAct_cons_star_nonarr act pr t h6,
      applyAct_cons_star_nonarr act pr (editKey k φq t)
        (by rw [tag_editKey]; exact h6)]
    by_cases hk : "items" = k
    · subst hk
      exact editKey_comm_same "items" (starPhi act pr) φq t
        (fun m _ => phi_phi_comm act ha n ihc (pr.length + 1) (starPhi act pr)
          wq φq (IsPhi.star pr) hq (by omega) m)
    · exact editKey_comm_ne "items" k (starPhi act pr) φq t hk

theorem seg_phi_form (act : Value → Option Value) (f : String)
    (rest : List String) (hf : f ≠ "*") :
    ∃ w φ, IsPhi act w φ ∧ w ≤ rest.length ∧
      ∀ t, applyAct act (f :: rest) t = editKey f φ t := by
  cases rest with
  | nil =>
    exact ⟨0, termPhi act, IsPhi.term, by omega,
      fun t => applyAct_cons_term act f t hf⟩
  | cons r1 rr =>
    exact ⟨(r1 :: rr).length, stepPhi act (r1 :: rr), IsPhi.step _, le_rfl,
      fun t => applyAct_cons_step act f (r1 :: rr) t hf (by simp)⟩

theorem applyAct_comm (act : Value → Option Value) (ha : ActGood act) :
    ∀ n, CommUpTo act n := by
  intro n
  induction n with
  | zero =>
    intro p q t hlen
    have hp : p = [] := List.length_eq_zero.mp (by omega)
    have hq2 : q = [] := List.length_eq_zero.mp (by omega)
    subst hp
    subst hq2
    rfl
  | succ n ih =>
    intro p q t hlen
    cases p with
    | nil => rfl
    | cons f pr =>
      cases q with
      | nil => rfl
      | cons g qr =>
        simp only [List.length_cons] at hlen
        by_cases hf : f = "*" <;> by_cases hg : g = "*"
        · subst hf
          subst hg
          by_cases h6 : t.tag = 6
          · obtain ⟨l, hl⟩ := tag_varr_inv t h6
            subst hl
            rw [applyAct_star_varr act qr l, applyAct_star_varr act pr l,
              applyAct_star_varr act pr (l.map (applyAct act qr)),
              applyAct_star_varr act qr (l.map (applyAct act pr))]
            rw [VList.map_comm_pointwise (applyAct act pr) (applyAct act qr)
              (fun x => ih pr qr x (by omega)) l]
          · rw [applyAct_cons_star_nonarr act qr t h6,
              applyAct_cons_star_nonarr act pr t h6,
              applyAct_cons_star_nonarr act pr _ (by rw [tag_editKey]; exact h6),
              applyAct_cons_star_nonarr act qr _ (by rw [tag_editKey]; exact h6)]
            exact editKey_comm_same "items" (starPhi act pr) (starPhi act qr) t
              (fun m _ => star_star_comm act n ih pr qr (by omega) m)
        · subst hf
          obtain ⟨wq, φq, hiq, hwq, hfq⟩ := seg_phi_form act g qr hg
          rw [hfq t, hfq (applyAct act ("*" :: pr) t)]
          exact comm_star_edit act ha n ih pr g wq φq hiq (by omega) t
        · subst hg
          obtain ⟨wp, φp, hip, hwp, hfp⟩ := seg_phi_form act f pr hf
          rw [hfp t, hfp (applyAct act ("*" :: qr) t)]
          exact (comm_star_edit act ha n ih qr f wp φp hip (by omega) t).symm
        · obtain ⟨wp, φp, hip, hwp, hfp⟩ := seg_phi_form act f pr hf
          obtain ⟨wq, φq, hiq, hwq, hfq⟩ := seg_phi_form act g qr hg
          rw [hfq t, hfp (editKey g φq t), hfp t, hfq (editKey f φp t)]
          by_cases hfg : f = g
          · subst hfg
            exact editKey_comm_same f φp φq t
              (fun m _ => phi_phi_comm act ha n ih wp φp wq φq hip hiq
                (by omega) m)
          · exact editKey_comm_ne f g φp φq t hfg

/-! # Hex characters and canonical ObjectId encodings -/

theorem hexLowerChar_canon (c : Char) (h : isCanonHexB c = true) :
    hexLowerChar c = c := by
  have hn : ('A' ≤ c && c ≤ 'F') = false := by
    simp only [isCanonHexB, Bool.or_eq_true, Bool.and_eq_true,
      decide_eq_true_eq] at h
    simp only [Bool.and_eq_false_iff, decide_eq_false_iff_not]
    rcases h with ⟨h3, h4⟩ | ⟨h3, h4⟩
    · exact Or.inl (fun h1 => absurd (le_trans h1 h4) (by decide))
    · exact Or.inr (fun h2 => absurd (le_trans h3 h2) (by decide))
  simp [hexLowerChar, hn]

theorem hexUpper_enum (c : Char) (h1 : 'A' ≤ c) (h2 : c ≤ 'F') :
    c = 'A' ∨ c = 'B' ∨ c = 'C' ∨ c = 'D' ∨ c = 'E' ∨ c = 'F' := by
  have l1 : 65 ≤ c.val.toNat := h1
  have l2 : c.val.toNat ≤ 70 := h2
  have hd : c.val.toNat = 65 ∨ c.val.toNat = 66 ∨ c.val.toNat = 67 ∨
      c.val.toNat = 68 ∨ c.val.toNat = 69 ∨ c.val.toNat = 70 := by omega
  rcases hd with h | h | h | h | h | h
  · exact Or.inl (Char.eq_of_val_eq (UInt32.ext h))
  · exact Or.inr (Or.inl (Char.eq_of_val_eq (UInt32.ext h)))
  · exact Or.inr (Or.inr (Or.inl (Char.eq_of_val_eq (UInt32.ext h))))
  · exact Or.inr (Or.inr (Or.inr (Or.inl (Char.eq_of_val_eq (UInt32.ext h)))))
  · exact Or.inr (Or.inr (Or.inr (Or.inr (Or.inl
      (Char.eq_of_val_eq (UInt32.ext h))))))
  · exact Or.inr (Or.inr (Or.inr (Or.inr (Or.inr
      (Char.eq_of_val_eq (UInt32.ext h))))))

theorem hexLower_canon_of_hex (c : Char) (h : isHexDigitB c = true) :
    isCanonHexB (hexLowerChar c) = true := by
  simp only [isHexDigitB, Bool.or_eq_true, Bool.and_eq_true,
    decide_eq_true_eq] at h
  rcases h with (⟨h1, h2⟩ | ⟨h1, h2⟩) | ⟨h1, h2⟩
  · have hc : isCanonHexB c = true := by simp [isCanonHexB, h1, h2]
    rw [hexLowerChar_canon c hc]
    exact hc
  · have hc : isCanonHexB c = true := by simp [isCanonHexB, h1, h2]
    rw [hexLowerChar_canon c hc]
    exact hc
  · rcases hexUpper_enum c h1 h2 with rfl | rfl | rfl | rfl | rfl | rfl <;> decide

theorem canonHex_isHex (c : Char) (h : isCanonHexB c = true) :
    isHexDigitB c = true := by
  unfold isCanonHexB at h
  unfold isHexDigitB
  rw [h, Bool.true_or]

theorem nibbleChar_canon (n : Nat) (h : n < 16) :
    isCanonHexB (nibbleChar n) = true := by
  interval_cases n <;> decide

theorem map_hexLower_id : ∀ (l : List Char), l.all isCanonHexB = true →
    l.map hexLowerChar = l
  | [], _ => rfl
  | c :: cs, h => by
    simp only [List.all_cons, Bool.and_eq_true] at h
    simp only [List.map_cons, hexLowerChar_canon c h.1,
      map_hexLower_id cs h.2]

theorem all_canon_hex : ∀ (l : List Char), l.all isCanonHexB = true →
    l.all isHexDigitB = true
  | [], _ => rfl
  | c :: cs, h => by
    simp only [List.all_cons, Bool.and_eq_true] at h ⊢
    exact ⟨canonHex_isHex c h.1, all_canon_hex cs h.2⟩

theorem all_map_hexLower : ∀ (l : List Char), l.all isHexDigitB = true →
    (l.map hexLowerChar).all isCanonHexB = true
  | [], _ => rfl
  | c :: cs, h => by
    simp only [List.map_cons, List.all_cons, Bool.and_eq_true] at h ⊢
    exact ⟨hexLower_canon_of_hex c h.1, all_map_hexLower cs h.2⟩

theorem hexLowerStr_canon (s : String) (h : s.data.all isCanonHexB = true) :
    hexLowerStr s = s := by
  cases s with
  | mk l =>
    show String.mk (l.map hexLowerChar) = String.mk l
    rw [map_hexLower_id l h]

theorem mkOID_oidToString (o : OID) (h : canonOID o = true) :
    mkOID (oidToString o) = o := by
  simp only [canonOID, Bool.and_eq_true, decide_eq_true_eq] at h
  cases o with
  | mk s =>
    simp only [mkOID, oidToString, if_pos h.1]
    rw [hexLowerStr_canon s h.2]

theorem oidIsValid_toString (o : OID) (h : canonOID o = true) :
    oidIsValid (oidToString o) = true := by
  simp only [canonOID, Bool.and_eq_true, decide_eq_true_eq] at h
  simp [oidIsValid, oidToString, h.1, all_canon_hex _ h.2]

theorem byteHex_canon (n : Nat) : (byteHex n).all isCanonHexB = true := by
  simp only [byteHex, List.all_cons, List.all_nil, Bool.and_eq_true]
  exact ⟨nibbleChar_canon _ (by omega), nibbleChar_canon _ (by omega), trivial⟩

theorem flatBytes_length : ∀ (l : List Char),
    ((l.map fun c => byteHex (c.toNat % 256)).flatten).length = 2 * l.length
  | [] => rfl
  | c :: cs => by
    show ((byteHex (c.toNat % 256) ::
      (cs.map fun c => byteHex (c.toNat % 256))).flatten).length =
        2 * (c :: cs).length
    rw [List.flatten_cons, List.length_append, flatBytes_length cs]
    show 2 + 2 * cs.length = 2 * (cs.length + 1)
    omega

theorem flatBytes_canon : ∀ (l : List Char),
    ((l.map fun c => byteHex (c.toNat % 256)).flatten).all isCanonHexB = true
  | [] => rfl
  | c :: cs => by
    simp only [List.map_cons, List.flatten_cons, List.all_append,
      Bool.and_eq_true]
    exact ⟨byteHex_canon _, flatBytes_canon cs⟩

theorem canonOID_mkOID (s : String) (h : oidIsValid s = true) :
    canonOID (mkOID s) = true := by
  simp only [oidIsValid, Bool.or_eq_true, Bool.and_eq_true,
    decide_eq_true_eq] at h
  by_cases h24 : s.length = 24
  · rcases h with h12 | ⟨_, hhex⟩
    · omega
    · simp only [mkOID, if_pos h24, canonOID]
      have hlen : (hexLowerStr s).length = 24 := by
        cases s with
        | mk l =>
          show (l.map hexLowerChar).length = 24
          rw [List.length_map]
          exact h24
      have hall : (hexLowerStr s).data.all isCanonHexB = true := by
        cases s with
        | mk l =>
          show (l.map hexLowerChar).all isCanonHexB = true
          exact all_map_hexLower l hhex
      simp [hlen, hall]
  · rcases h with h12 | ⟨h24', _⟩
    · simp only [mkOID, if_neg h24, canonOID]
      have hlen : (String.mk ((s.data.map fun c =>
          byteHex (c.toNat % 256)).flatten)).length = 24 := by
        show ((s.data.map fun c => byteHex (c.toNat % 256)).flatten).length = 24
        rw [flatBytes_length]
        have : s.data.length = 12 := h12
        omega
      simp [hlen, flatBytes_canon s.data]
    · exact absurd h24' h24

theorem oidIsValid_ne_empty (s : String) (h : oidIsValid s = true) :
    s ≠ "" := by
  intro he
  subst he
  exact absurd h (by decide)

/-! # The leaf conversions satisfy `ActGood` -/

theorem actS2O_fire (m m' : Value) (hm : actS2O m = some m') :
    ∃ s, m = .vstr s ∧ oidIsValid s = true ∧ m' = .oid (mkOID s) := by
  cases m with
  | vstr s =>
    simp only [actS2O] at hm
    split at hm
    · exact ⟨s, rfl, by assumption, (Option.some.inj hm).symm⟩
    · exact Option.noConfusion hm
  | vnull => exact Option.noConfusion hm
  | vundef => exact Option.noConfusion hm
  | vbool b => exact Option.noConfusion hm
  | vnum n => exact Option.noConfusion hm
  | oid o => exact Option.noConfusion hm
  | varr l => exact Option.noConfusion hm
  | vobj pr => exact Option.noConfusion hm

theorem actO2S_fire (m m' : Value) (hm : actO2S m = some m') :
    ∃ o, m = .oid o ∧ m' = .vstr (oidToString o) := by
  cases m with
  | oid o => exact ⟨o, rfl, (Option.some.inj hm).symm⟩
  | vnull => exact Option.noConfusion hm
  | vundef => exact Option.noConfusion hm
  | vbool b => exact Option.noConfusion hm
  | vnum n => exact Option.noConfusion hm
  | vstr s => exact Option.noConfusion hm
  | varr l => exact Option.noConfusion hm
  | vobj pr => exact Option.noConfusion hm

theorem actGood_S2O : ActGood actS2O := by
  refine ⟨fun l => rfl, fun pr => rfl, ?_, ?_⟩
  · intro m m' hm
    obtain ⟨s, _, _, rfl⟩ := actS2O_fire m m' hm
    rfl
  · intro m m' hm
    obtain ⟨s, rfl, hv, rfl⟩ := actS2O_fire m m' hm
    refine ⟨rfl, ?_, rfl, rfl⟩
    simp [Value.truthy, oidIsValid_ne_empty s hv]

/-! # Canonical trees -/

theorem canonV_oid (o : OID) : canonV (.oid o) = canonOID o := by rw [canonV]

theorem canonV_vstr (s : String) : canonV (.vstr s) = true := by rw [canonV]

theorem canonV_varr (l : VList) : canonV (.varr l) = canonVL l := by
  rw [canonV]

theorem canonV_vobj (ps : VProps) : canonV (.vobj ps) = canonVP ps := by
  rw [canonV]

theorem canonVL_cons (v : Value) (r : VList) :
    canonVL (.cons v r) = (canonV v && canonVL r) := by rw [canonVL]

theorem canonVP_cons (k : String) (v : Value) (r : VProps) :
    canonVP (.cons k v r) = (canonV v && canonVP r) := by rw [canonVP]

theorem canonVP_get : ∀ (ps : VProps) (k : String) (m : Value),
    canonVP ps = true → ps.get? k = some m → canonV m = true
  | .nil, _, _, _, hg => Option.noConfusion hg
  | .cons k' v r, k, m, hc, hg => by
    rw [canonVP_cons, Bool.and_eq_true] at hc
    simp only [VProps.get?] at hg
    by_cases he : k' = k
    · rw [if_pos he] at hg
      cases hg
      exact hc.1
    · rw [if_neg he] at hg
      exact canonVP_get r k m hc.2 hg

theorem canonVL_get : ∀ (l : VList) (i : Nat) (m : Value),
    canonVL l = true → l.get? i = some m → canonV m = true
  | .nil, _, _, _, hg => Option.noConfusion hg
  | .cons v r, 0, m, hc, hg => by
    rw [canonVL_cons, Bool.and_eq_true] at hc
    cases hg
    exact hc.1
  | .cons v r, i + 1, m, hc, hg => by
    rw [canonVL_cons, Bool.and_eq_true] at hc
    exact canonVL_get r i m hc.2 hg

theorem canonVP_set : ∀ (ps : VProps) (k : String) (x : Value),
    canonVP ps = true → canonV x = true → canonVP (ps.set k x) = true
  | .nil, _, _, hc, _ => hc
  | .cons k' v r, k, x, hc, hx => by
    rw [canonVP_cons, Bool.and_eq_true] at hc
    simp only [VProps.set]
    by_cases he : k' = k
    · rw [if_pos he, canonVP_cons, Bool.and_eq_true]
      exact ⟨hx, hc.2⟩
    · rw [if_neg he, canonVP_cons, Bool.and_eq_true]
      exact ⟨hc.1, canonVP_set r k x hc.2 hx⟩

theorem canonVL_set : ∀ (l : VList) (i : Nat) (x : Value),
    canonVL l = true → canonV x = true → canonVL (l.set i x) = true
  | .nil, _, _, hc, _ => hc
  | .cons v r, 0, x, hc, hx => by
    rw [canonVL_cons, Bool.and_eq_true] at hc
    rw [VList.set, canonVL_cons, Bool.and_eq_true]
    exact ⟨hx, hc.2⟩
  | .cons v r, i + 1, x, hc, hx => by
    rw [canonVL_cons, Bool.and_eq_true] at hc
    rw [VList.set, canonVL_cons, Bool.and_eq_true]
    exact ⟨hc.1, canonVL_set r i x hc.2 hx⟩

theorem canonVL_map_of (h : Value → Value)
    (hh : ∀ v, canonV v = true → canonV (h v) = true) :
    ∀ (l : VList), canonVL l = true → canonVL (l.map h) = true
  | .nil, hc => hc
  | .cons v r, hc => by
    rw [canonVL_cons, Bool.and_eq_true] at hc
    rw [VList.map, canonVL_cons, Bool.and_eq_true]
    exact ⟨hh v hc.1, canonVL_map_of h hh r hc.2⟩

theorem canonV_memGet (t : Value) (k : String) (m : Value)
    (hc : canonV t = true) (hg : t.memGet k = some m) : canonV m = true := by
  cases t with
  | vobj ps =>
    rw [canonV_vobj] at hc
    exact canonVP_get ps k m hc hg
  | varr l =>
    rw [canonV_varr] at hc
    obtain ⟨i, _, _, hgi⟩ := memGet_varr_inv l k m hg
    exact canonVL_get l i m hc hgi
  | vnull => exact Option.noConfusion hg
  | vundef => exact Option.noConfusion hg
  | vbool b => exact Option.noConfusion hg
  | vnum n => exact Option.noConfusion hg
  | vstr s => exact Option.noConfusion hg
  | oid o => exact Option.noConfusion hg

theorem canonV_memSet (t : Value) (k : String) (x : Value)
    (hc : canonV t = true) (hx : canonV x = true) :
    canonV (t.memSet k x) = true := by
  cases t with
  | vobj ps =>
    rw [canonV_vobj] at hc
    simp only [Value.memSet]
    rw [canonV_vobj]
    exact canonVP_set ps k x hc hx
  | varr l =>
    rw [canonV_varr] at hc
    simp only [Value.memSet]
    cases hn : k.toNat? with
    | none => rw [canonV_varr]; exact hc
    | some i =>
      show canonV (if toString i = k then Value.varr (l.set i x)
        else Value.varr l) = true
      by_cases hcc : toString i = k
      · rw [if_pos hcc, canonV_varr]
        exact canonVL_set l i x hc hx
      · rw [if_neg hcc, canonV_varr]
        exact hc
  | vnull => exact hc
  | vundef => exact hc
  | vbool b => exact hc
  | vnum n => exact hc
  | vstr s => exact hc
  | oid o => exact hc

theorem canonV_editKey (k : String) (φ : Value → Value)
    (hφ : ∀ m, canonV m = true → canonV (φ m) = true) (t : Value)
    (hc : canonV t = true) : canonV (editKey k φ t) = true := by
  unfold editKey
  rcases hm : t.memGet k with _ | m
  · exact hc
  · exact canonV_memSet t k (φ m) hc (hφ m (canonV_memGet t k m hc hm))

theorem canonV_termPhi (act : Value → Option Value)
    (hact : ∀ m m', act m = some m' → canonV m' = true) (m : Value)
    (hc : canonV m = true) : canonV (termPhi act m) = true := by
  unfold termPhi
  rcases hm : act m with _ | m'
  · exact hc
  · exact hact m m' hm

theorem canonV_applyAct (act : Value → Option Value)
    (hact : ∀ m m', act m = some m' → canonV m' = true) :
    ∀ (segs : List String) (t : Value), canonV t = true →
      canonV (applyAct act segs t) = true := by
  intro segs
  induction segs with
  | nil => exact fun t hc => hc
  | cons f rest ih =>
    intro t hc
    have hstar : ∀ m, canonV m = true → canonV (starPhi act rest m) = true := by
      intro m hm
      cases m with
      | varr l =>
        rw [starPhi_varr, canonV_varr]
        rw [canonV_varr] at hm
        exact canonVL_map_of _ ih l hm
      | vnull => exact hm
      | vundef => exact hm
      | vbool b => exact hm
      | vnum n => exact hm
      | vstr s => exact hm
      | oid o => exact hm
      | vobj ps => exact hm
    by_cases hf : f = "*"
    · subst hf
      by_cases h6 : t.tag = 6
      · obtain ⟨l, hl⟩ := tag_varr_inv t h6
        subst hl
        rw [applyAct_star_varr, canonV_varr]
        rw [canonV_varr] at hc
        exact canonVL_map_of _ ih l hc
      · rw [applyAct_cons_star_nonarr act rest t h6]
        exact canonV_editKey "items" (starPhi act rest) hstar t hc
    · cases rest with
      | nil =>
        rw [applyAct_cons_term act f t hf]
        exact canonV_editKey f (termPhi act) (canonV_termPhi act hact) t hc
      | cons r1 rr =>
        rw [applyAct_cons_step act f (r1 :: rr) t hf (by simp)]
        refine canonV_editKey f (stepPhi act (r1 :: rr)) ?_ t hc
        intro m hm
        unfold stepPhi
        by_cases ht : m.truthy
        · rw [if_pos ht]
          exact ih m hm
        · rw [if_neg ht]
          exact hm

theorem actO2S_canon (m m' : Value) (hm : actO2S m = some m') :
    canonV m' = true := by
  obtain ⟨o, _, rfl⟩ := actO2S_fire m m' hm
  exact canonV_vstr _

theorem actS2O_canon (m m' : Value) (hm : actS2O m = some m') :
    canonV m' = true := by
  obtain ⟨s, _, hv, rfl⟩ := actS2O_fire m m' hm
  rw [canonV_oid]
  exact canonOID_mkOID s hv

/-! # Same-path fusion: string conversion absorbs the preceding
ObjectId-to-string conversion on canonical trees -/

theorem canonVL_map_fuse (g h : Value → Value)
    (hp : ∀ v, canonV v = true → h (g v) = h v) :
    ∀ (l : VList), canonVL l = true → (l.map g).map h = l.map h
  | .nil, _ => rfl
  | .cons v r, hc => by
    rw [canonVL_cons, Bool.and_eq_true] at hc
    simp only [VList.map]
    rw [hp v hc.1, canonVL_map_fuse g h hp r hc.2]

theorem s2o_o2s_term_fuse (m : Value) (hc : canonV m = true) :
    termPhi actS2O (termPhi actO2S m) = termPhi actS2O m := by
  rcases hm : actO2S m with _ | m'
  · have h1 : termPhi actO2S m = m := by rw [termPhi, hm]
    rw [h1]
  · obtain ⟨o, rfl, rfl⟩ := actO2S_fire m m' hm
    rw [canonV_oid] at hc
    have h1 : termPhi actO2S (.oid o) = .vstr (oidToString o) := by
      rw [termPhi, hm]
    have h2 : actS2O (.vstr (oidToString o)) =
        some (.oid (mkOID (oidToString o))) := by
      simp only [actS2O, if_pos (oidIsValid_toString o hc)]
    have h3 : termPhi actS2O (.vstr (oidToString o)) = .oid (mkOID (oidToString o)) := by
      rw [termPhi, h2]
    have h4 : termPhi actS2O (.oid o) = .oid o := by
      rw [termPhi]
      rfl
    rw [h1, h3, h4, mkOID_oidToString o hc]

theorem s2o_o2s_same : ∀ (segs : List String) (t : Value), canonV t = true →
    applyAct actS2O segs (applyAct actO2S segs t) = applyAct actS2O segs t := by
  intro segs
  induction segs with
  | nil => exact fun t _ => rfl
  | cons f rest ih =>
    intro t hc
    have hstar : ∀ m, canonV m = true →
        starPhi actS2O rest (starPhi actO2S rest m) = starPhi actS2O rest m := by
      intro m hm
      cases m with
      | varr l =>
        rw [starPhi_varr, starPhi_varr, starPhi_varr]
        rw [canonV_varr] at hm
        rw [canonVL_map_fuse (applyAct actO2S rest) (applyAct actS2O rest)
          ih l hm]
      | vnull => rfl
      | vundef => rfl
      | vbool b => rfl
      | vnum n => rfl
      | vstr s => rfl
      | oid o => rfl
      | vobj ps => rfl
    by_cases hf : f = "*"
    · subst hf
      by_cases h6 : t.tag = 6
      · obtain ⟨l, hl⟩ := tag_varr_inv t h6
        subst hl
        rw [applyAct_star_varr, applyAct_star_varr, applyAct_star_varr]
        rw [canonV_varr] at hc
        rw [canonVL_map_fuse (applyAct actO2S rest) (applyAct actS2O rest)
          ih l hc]
      · rw [applyAct_cons_star_nonarr actO2S rest t h6,
          applyAct_cons_star_nonarr actS2O rest _ (by rw [tag_editKey]; exact h6),
          applyAct_cons_star_nonarr actS2O rest t h6]
        exact editKey_fusion "items" (starPhi actO2S rest) (starPhi actS2O rest)
          t (fun m hm => hstar m (canonV_memGet t "items" m hc hm))
    · cases rest with
      | nil =>
        rw [applyAct_cons_term actO2S f t hf,
          applyAct_cons_term actS2O f _ hf,
          applyAct_cons_term actS2O f t hf]
        exact editKey_fusion f (termPhi actO2S) (termPhi actS2O) t
          (fun m hm => s2o_o2s_term_fuse m (canonV_memGet t f m hc hm))
      | cons r1 rr =>
        rw [applyAct_cons_step actO2S f (r1 :: rr) t hf (by simp),
          applyAct_cons_step actS2O f (r1 :: rr) _ hf (by simp),
          applyAct_cons_step actS2O f (r1 :: rr) t hf (by simp)]
        refine editKey_fusion f (stepPhi actO2S (r1 :: rr))
          (stepPhi actS2O (r1 :: rr)) t ?_
        intro m hm
        have hcm : canonV m = true := canonV_memGet t f m hc hm
        by_cases ht : m.truthy
        · have h1 : stepPhi actO2S (r1 :: rr) m = applyAct actO2S (r1 :: rr) m := by
            rw [stepPhi, if_pos ht]
          have h2 : (applyAct actO2S (r1 :: rr) m).truthy = true := by
            rw [truthy_applyAct]
            exact ht
          have h3 : stepPhi actS2O (r1 :: rr) (applyAct actO2S (r1 :: rr) m) =
              applyAct actS2O (r1 :: rr) (applyAct actO2S (r1 :: rr) m) := by
            rw [stepPhi, if_pos h2]
          have h4 : stepPhi actS2O (r1 :: rr) m = applyAct actS2O (r1 :: rr) m := by
            rw [stepPhi, if_pos ht]
          rw [h1, h3, h4, ih m hcm]
        · have h1 : stepPhi actO2S (r1 :: rr) m = m := by
            rw [stepPhi, if_neg ht]
          rw [h1]

/-! # Folding the converters over a path list -/

theorem foldPaths_cons (act : Value → Option Value) (p : String)
    (ps : List String) (v : Value) :
    foldPaths act (p :: ps) v = foldPaths act ps (pathEdit act p v) := rfl

theorem foldPaths_append (act : Value → Option Value) (l1 l2 : List String)
    (v : Value) :
    foldPaths act (l1 ++ l2) v = foldPaths act l2 (foldPaths act l1 v) := by
  simp [foldPaths, List.foldl_append]

theorem pathEdit_comm_S (p q : String) (v : Value) :
    pathEdit actS2O p (pathEdit actS2O q v) =
      pathEdit actS2O q (pathEdit actS2O p v) := by
  unfold pathEdit
  by_cases hp : p = "" <;> by_cases hq : q = ""
  · simp [hp, hq]
  · simp [hp, hq]
  · simp [hp, hq]
  · simp only [if_neg hp, if_neg hq]
    exact applyAct_comm actS2O actGood_S2O
      ((splitDots p).length + (splitDots q).length)
      (splitDots p) (splitDots q) v le_rfl

theorem foldS_pull (q : String) : ∀ (l : List String) (v : Value),
    pathEdit actS2O q (foldPaths actS2O l v) =
      foldPaths actS2O l (pathEdit actS2O q v)
  | [], _ => rfl
  | p :: ps, v => by
    rw [foldPaths_cons, foldPaths_cons, foldS_pull q ps, pathEdit_comm_S]

theorem pathEdit_fusion (q : String) (v : Value) (hc : canonV v = true) :
    pathEdit actS2O q (pathEdit actO2S q v) = pathEdit actS2O q v := by
  unfold pathEdit
  by_cases hq : q = ""
  · simp [hq]
  · simp only [if_neg hq]
    exact s2o_o2s_same (splitDots q) v hc

theorem canonV_pathEdit_O (q : String) (v : Value) (hc : canonV v = true) :
    canonV (pathEdit actO2S q v) = true := by
  unfold pathEdit
  by_cases hq : q = ""
  · rw [if_pos hq]
    exact hc
  · rw [if_neg hq]
    exact canonV_applyAct actO2S actO2S_canon (splitDots q) v hc

theorem foldS_absorbO (ps : List String) (q : String) (hq : q ∈ ps)
    (v : Value) (hc : canonV v = true) :
    foldPaths actS2O ps (pathEdit actO2S q v) = foldPaths actS2O ps v := by
  obtain ⟨l1, l2, rfl⟩ := List.mem_iff_append.mp hq
  rw [foldPaths_append, foldPaths_append, foldPaths_cons, foldPaths_cons,
    foldS_pull, foldS_pull, pathEdit_fusion q v hc]

theorem foldS_foldO : ∀ (qs ps : List String), (∀ q, q ∈ qs → q ∈ ps) →
    ∀ (v : Value), canonV v = true →
      foldPaths actS2O ps (foldPaths actO2S qs v) = foldPaths actS2O ps v
  | [], _, _, _, _ => rfl
  | q :: qs, ps, hsub, v, hc => by
    rw [foldPaths_cons,
      foldS_foldO qs ps (fun x hx => hsub x (List.mem_cons_of_mem q hx))
        (pathEdit actO2S q v) (canonV_pathEdit_O q v hc)]
    exact foldS_absorbO ps q (hsub q (List.mem_cons_self q qs)) v hc

/-! # Root-path behaviour of the two converters -/

theorem convertO2S_root (v : Value) (S : Schema) :
    convertObjectIdToStrings v S [""] =
      (match v with | .oid o => .vstr (oidToString o) | w => w) := by
  unfold convertObjectIdToStrings
  rw [if_pos rfl]
  cases v <;> rfl

theorem convertS2O_root_vstr (s : String) (S : Schema)
    (h : oidIsValid s = true) :
    convertStringsToObjectIds (.vstr s) S [""] = .oid (mkOID s) := by
  unfold convertStringsToObjectIds
  rw [if_pos rfl]
  simp [Value.isUndef, h]

theorem convertS2O_root_oid (o : OID) (S : Schema) :
    convertStringsToObjectIds (.oid o) S [""] = .oid o := by
  unfold convertStringsToObjectIds
  rw [if_pos rfl]
  simp [Value.isUndef]

/-! # Lemmas about the JavaScript-Set model -/

theorem jsSetList_go_mem (l : List String) (seen : List String) (x : String) :
    x ∈ jsSetList.go seen l ↔ x ∈ l ∧ x ∉ seen := by
  induction l generalizing seen with
  | nil => simp [jsSetList.go]
  | cons y ys ih =>
    by_cases hy : y ∈ seen
    · simp only [jsSetList.go, if_pos hy, ih, List.mem_cons]
      constructor
      · rintro ⟨h1, h2⟩
        exact ⟨Or.inr h1, h2⟩
      · rintro ⟨h1 | h1, h2⟩
        · exact absurd (h1 ▸ hy) h2
        · exact ⟨h1, h2⟩
    · simp only [jsSetList.go, if_neg hy, ih, List.mem_cons]
      constructor
      · rintro (rfl | ⟨h1, h2⟩)
        · exact ⟨Or.inl rfl, hy⟩
        · exact ⟨Or.inr h1, fun hs => h2 (Or.inr hs)⟩
      · rintro ⟨h1 | h1, h2⟩
        · exact Or.inl h1
        · by_cases hxy : x = y
          · exact Or.inl hxy
          · exact Or.inr ⟨h1, fun hc => hc.elim hxy h2⟩

theorem mem_jsSetList (l : List String) (x : String) :
    x ∈ jsSetList l ↔ x ∈ l := by
  simpa using jsSetList_go_mem l [] x

theorem jsSetList_contains (l : List String) (x : String) :
    (jsSetList l).contains x = l.contains x := by
  rw [Bool.eq_iff_iff]
  constructor
  · intro hx
    exact List.elem_iff.mpr ((mem_jsSetList l x).mp (List.elem_iff.mp hx))
  · intro hx
    exact List.elem_iff.mpr ((mem_jsSetList l x).mpr (List.elem_iff.mp hx))

theorem jsSetList_go_eq_self (l : List String) :
    ∀ seen, l.Nodup → (∀ x ∈ l, x ∉ seen) → jsSetList.go seen l = l := by
  induction l with
  | nil => intro seen _ _; rfl
  | cons y ys ih =>
    intro seen hnd hdisj
    have hy : y ∉ seen := hdisj y (List.mem_cons_self y ys)
    have hdisj2 : ∀ x ∈ ys, x ∉ (y :: seen) := by
      intro x hx hmem
      rcases List.mem_cons.mp hmem with h1 | h1
      · exact (List.nodup_cons.mp hnd).1 (h1 ▸ hx)
      · exact hdisj x (List.mem_cons_of_mem _ hx) h1
    rw [jsSetList.go, if_neg hy, ih (y :: seen) (List.Nodup.of_cons hnd) hdisj2]

/-- The operation list, spelled out: for a skip-list that cannot name
`Clone`, the list is `Clone` followed by the inner (already
`Clone`-containing) difference in declaration order. -/
theorem validateOps_eq (skip : List String) (h : "Clone" ∉ skip) :
    validateOps skip =
      "Clone" :: "Clone" ::
        (["Clean", "Default", "Convert"].filter (fun x => !skip.contains x)) := by
  have hc : ∀ x : String, (!(jsSetList skip).contains x) = (!skip.contains x) := by
    intro x; rw [jsSetList_contains]
  show "Clone" :: jsSetList
      (setDifference (jsSetList ["Clone", "Clean", "Default", "Convert"])
        (jsSetList skip)) = _
  rw [show jsSetList ["Clone", "Clean", "Default", "Convert"] =
    ["Clone", "Clean", "Default", "Convert"] from rfl]
  show "Clone" :: jsSetList
      (List.filter (fun x => !(jsSetList skip).contains x)
        ["Clone", "Clean", "Default", "Convert"]) = _
  rw [List.filter_congr (fun x _ => hc x)]
  rw [List.filter_cons]
  have hcl : (!skip.contains "Clone") = true := by
    simp [List.elem_iff, h]
  rw [if_pos hcl]
  have hsub : (["Clean", "Default", "Convert"].filter
      (fun x => !skip.contains x)).Nodup :=
    List.Nodup.filter _ (by decide)
  have hnc : "Clone" ∉ ["Clean", "Default", "Convert"].filter
      (fun x => !skip.contains x) := by
    intro hmem
    have := List.mem_of_mem_filter hmem
    simp at this
  have hdisj : ∀ x ∈ (["Clean", "Default", "Convert"].filter
      (fun x => !skip.contains x)), x ∉ ["Clone"] := by
    intro x hx hseen
    have hx2 := List.mem_of_mem_filter hx
    have hxc : x = "Clone" := List.mem_singleton.mp hseen
    subst hxc
    simp at hx2
  show "Clone" :: jsSetList.go [] _ = _
  rw [jsSetList.go, if_neg (List.not_mem_nil "Clone"),
    jsSetList_go_eq_self _ ["Clone"] hsub hdisj]

/-- The direct-ObjectId branch of `convertObjectIds` on a valid string
input, for any schema whose ObjectId path list is the single root path. -/
theorem convertObjectIds_root_vstr (fresh : OID) (s : String) (schema : Schema)
    (hp : getObjectIdPaths schema = [""]) (hv : oidIsValid s = true) :
    convertObjectIds fresh (.vstr s) schema =
      if s = sentinel then .oid fresh else .oid (mkOID s) := by
  simp only [convertObjectIds, hp]
  simp [Value.isUndef, hv]

/-! # Claim theorems -/

/-- C1: the claim is right about the documented intent but the code
violates it — with `containsObjectId` set, `validate` runs
`convertObjectIdToStrings` on the caller's argument itself before the
clone-first parse, so an ObjectId-valued field of the caller's object is
overwritten in place with its string form.  At the failing input
`{ _id: ObjectId('507f1f77bcf86cd799439011') }` the caller's object ends
up holding the string, and is no longer deep-equal to its pre-call
state. -/
theorem validate_mutates_objectid_input :
    validateEffectOnCaller valueUser schemaUser true [] =
      .vobj (.cons "_id" (.vstr "507f1f77bcf86cd799439011") .nil) ∧
    validateEffectOnCaller valueUser schemaUser true [] ≠ valueUser := by
  refine ⟨rfl, ?_⟩
  intro h
  rw [show validateEffectOnCaller valueUser schemaUser true [] =
    .vobj (.cons "_id" (.vstr "507f1f77bcf86cd799439011") .nil) from rfl] at h
  simp [valueUser] at h

/-- C5: the claim describes the documented behaviour, but the code never
performs any conversion for a path whose terminal segment is the wildcard:
`setValue` fans `contacts.*` out over the array elements with an empty
remaining segment list, and the empty-segment call returns immediately, so
even the validly-formatted element is left as a string.  At the failing
input `{ contacts: ['507f1f77bcf86cd799439011', 'not-a-valid-objectid'] }`
the whole value comes back unchanged. -/
theorem wildcard_terminal_conversion_noop :
    getObjectIdPaths schemaContacts = ["contacts.*"] ∧
    convertStringsToObjectIds valueContacts schemaContacts ["contacts.*"] =
      valueContacts := ⟨rfl, rfl⟩

/-- C6 counterexample: for a root array schema whose item carries the
`objectid` format, `getObjectIdPaths` returns `['.*']` (the traversal
appends `.*` even to the empty path), not `['*']` as claimed. -/
theorem root_array_path_has_leading_dot :
    getObjectIdPaths schemaRootArray = [".*"] ∧
    getObjectIdPaths schemaRootArray ≠ ["*"] := by
  refine ⟨rfl, ?_⟩
  intro h
  rw [show getObjectIdPaths schemaRootArray = [".*"] from rfl] at h
  simp at h

/-- C6 amended: for every schema whose root node is an array whose item
schema carries the identifier format, `getObjectIdPaths` returns exactly
one path, and that path is `.*` — the traversal appends `.*`
unconditionally, even when the current path is empty. -/
theorem root_array_single_path (item : Schema) (pat desc : Option String)
    (d : SDefault) (mn mx : Option Int)
    (hfmt : item.format = some "objectid") :
    getObjectIdPaths (.node none (some "array") pat desc none (some item) d mn mx) =
      [".*"] := by
  cases item with
  | node f t p de pr it df mi ma =>
    simp only [Schema.format] at hfmt
    simp [getObjectIdPaths, traverseOid_node, traversePropsIf_def,
      traverseItemsIf_def, hfmt]

/-- C6 witness. -/
theorem root_array_single_path_witness :
    oidNode.format = some "objectid" ∧
    getObjectIdPaths (.node none (some "array") none none none (some oidNode)
      .noneD none none) = [".*"] :=
  ⟨rfl, root_array_single_path oidNode none none .noneD none none rfl⟩

/-- C7: conversion through a schema built with the `autoGenerate` mode
turns the sentinel string `'666666666666666666666666'` into the freshly
generated ObjectId (not the ObjectId spelling the sentinel), while every
other valid 24-hex string becomes the ObjectId carrying exactly that
value. -/
theorem objectid_autogenerate_sentinel (fresh : OID) (s : String)
    (h24 : s.data.length = 24) (hhex : s.data.all isHexDigitB = true) :
    (s = sentinel →
      convertObjectIds fresh (.vstr s) (ObjectIdType true) = .oid fresh ∧
      (fresh ≠ mkOID sentinel →
        convertObjectIds fresh (.vstr s) (ObjectIdType true) ≠
          .oid (mkOID sentinel))) ∧
    (s ≠ sentinel →
      convertObjectIds fresh (.vstr s) (ObjectIdType true) = .oid (mkOID s)) := by
  have hvalid : oidIsValid s = true := by
    simp [oidIsValid, String.length, h24, hhex]
  have hpaths : getObjectIdPaths (ObjectIdType true) = [""] := rfl
  have hroot := convertObjectIds_root_vstr fresh s (ObjectIdType true) hpaths hvalid
  constructor
  · intro hs
    subst hs
    have heq : convertObjectIds fresh (.vstr sentinel) (ObjectIdType true) =
        .oid fresh := by rw [hroot]; simp
    refine ⟨heq, fun hne h => hne ?_⟩
    rw [heq] at h
    exact (Value.oid.injEq _ _).mp h
  · intro hs
    rw [hroot, if_neg hs]

/-- C7 witness. -/
theorem objectid_autogenerate_sentinel_witness :
    ("507f1f77bcf86cd799439011" : String).data.length = 24 ∧
    ("507f1f77bcf86cd799439011" : String).data.all isHexDigitB = true ∧
    convertObjectIds ⟨"111111111111111111111111"⟩
      (.vstr "507f1f77bcf86cd799439011") (ObjectIdType true) =
      .oid (mkOID "507f1f77bcf86cd799439011") :=
  ⟨by decide, by decide,
    (objectid_autogenerate_sentinel ⟨"111111111111111111111111"⟩
      "507f1f77bcf86cd799439011" (by decide) (by decide)).2 (by decide)⟩

/-- C8: `createCompiledSchema` copies every own property descriptor of the
schema (so the enumerable own-property set is unchanged) and makes the
compiled checker reachable under the fixed key `_compiled` as a
non-enumerable, non-writable property on the new prototype, provided the
schema does not itself define an own `_compiled` property (TypeBox schema
nodes never do). -/
theorem createCompiledSchema_shape (schema : JsObj) (cid : Nat) :
    (createCompiledSchema schema cid).own = schema.own ∧
    (createCompiledSchema schema cid).enumerableOwnKeys =
      schema.enumerableOwnKeys ∧
    (assocFirst schema.own "_compiled" = none →
      (createCompiledSchema schema cid).getProp "_compiled" =
        some { value := .checker cid, enumerable := false,
               writable := false, configurable := false }) := by
  refine ⟨rfl, rfl, fun h => ?_⟩
  simp [JsObj.getProp, createCompiledSchema, h, assocFirst]

/-- C8 witness. -/
theorem createCompiledSchema_shape_witness :
    assocFirst jsSchema0.own "_compiled" = none ∧
    (createCompiledSchema jsSchema0 7).getProp "_compiled" =
      some { value := .checker 7, enumerable := false, writable := false,
             configurable := false } :=
  ⟨rfl, (createCompiledSchema_shape jsSchema0 7).2.2 rfl⟩

/-- C9 counterexample: an empty-string literal default is supplied to both
factories and conforms to neither format, yet neither factory raises —
the `if (config?.default)` truthiness guard skips the validation entirely
for falsy defaults. -/
theorem empty_default_bypasses_check :
    (Utils.UUID { default := some "", random := false }).isOk = true ∧
    uuidMatch "" = false ∧
    (Utils.ObjectId { default := some "", random := false }).isOk = true ∧
    oidIsValid "" = false := by
  refine ⟨rfl, by decide, rfl, by decide⟩

/-- C9 amended: a supplied *non-empty* literal default that fails the
format check makes the factory raise at construction time, and a
conforming literal default never raises and is installed as the node's
default annotation; an empty-string default is silently ignored instead
(conforming defaults are necessarily non-empty, so they are unaffected). -/
theorem truthy_default_checked_at_construction (d : String) (r : Bool)
    (hne : d ≠ "") :
    (uuidMatch d = false →
      Utils.UUID { default := some d, random := r } =
        .error ("Invalid default value for UUID " ++ d)) ∧
    (uuidMatch d = true →
      (Utils.UUID { default := some d, random := r }).isOk = true ∧
      okDflt (Utils.UUID { default := some d, random := r }) =
        some (.litD (.vstr d))) ∧
    (oidIsValid d = false →
      Utils.ObjectId { default := some d, random := r } =
        .error ("Invalid default value for ObjectIdType " ++ d)) ∧
    (oidIsValid d = true →
      (Utils.ObjectId { default := some d, random := r }).isOk = true ∧
      okDflt (Utils.ObjectId { default := some d, random := r }) =
        some (.litD (.vstr d))) := by
  refine ⟨fun hm => ?_, fun hm => ?_, fun hm => ?_, fun hm => ?_⟩
  · simp [Utils.UUID, truthyStr, hne, hm]
  · simp [Utils.UUID, truthyStr, hne, hm, okDflt, Schema.dflt, Except.isOk,
      Except.toBool]
  · simp [Utils.ObjectId, truthyStr, hne, hm]
  · simp [Utils.ObjectId, truthyStr, hne, hm, okDflt, Schema.dflt,
      Except.isOk, Except.toBool]

/-- C9 witness. -/
theorem truthy_default_checked_at_construction_witness :
    ("zz" : String) ≠ "" ∧ uuidMatch "zz" = false ∧
    Utils.UUID { default := some "zz", random := false } =
      .error ("Invalid default value for UUID " ++ "zz") :=
  ⟨by decide, by decide,
    (truthy_default_checked_at_construction "zz" false (by decide)).1
      (by decide)⟩

/-- C10: `Utils.Timestamp({ default: 0 })` discards the falsy literal `0`
in its `config?.default || ...` default-selection expression, so the node
carries no default annotation and the Default stage leaves every value —
missing ones included — untouched, never filling in the configured `0`. -/
theorem timestamp_zero_default_discarded :
    (Utils.Timestamp { default := some 0 }).dflt = .noneD ∧
    ∀ (genEval : GenKind → Value) (v : Value),
      applyDefaultStage (Utils.Timestamp { default := some 0 }) genEval v = v := by
  refine ⟨rfl, fun genEval v => ?_⟩
  unfold applyDefaultStage
  split
  · rfl
  · rfl

/-- C3 counterexample: when the external parse run raises a structural
violation, `Decode` returns `[message, undefined]` — the second element of
the failure tuple is `undefined`, not the original (or any partially
processed) input value. -/
theorem decode_failure_discards_input :
    modelDecode (.vstr "x") true (.error decodeErr0) =
      (some "Expected string at path \"/name\" but got \"5\"", .vundef) ∧
    (modelDecode (.vstr "x") true (.error decodeErr0)).2 ≠ .vstr "x" := by
  refine ⟨rfl, ?_⟩
  intro h
  rw [show (modelDecode (.vstr "x") true (.error decodeErr0)).2 = .vundef
    from rfl] at h
  simp at h

/-- C3 amended: the primary entry points never raise for an expected
validation failure and always return a two-element result; on success the
result is `(null, fullyProcessedValue)`; on failure `validate` returns the
caller's original (possibly partially-processed) value in the second slot,
while `Encode` and `Decode` return `undefined` there instead of the
input. -/
theorem entry_points_return_error_tuples (value parsed result : Value)
    (schema : Schema) (containsObjectId : Bool) (skips : List String)
    (firstErr : Option CheckErr) (e : ParseErr) (applyDefault : Bool) :
    (modelValidate value schema containsObjectId skips parsed true firstErr =
      (none,
        if containsObjectId then
          convertStringsToObjectIds parsed schema (getObjectIdPaths schema)
        else parsed)) ∧
    (modelValidate value schema containsObjectId skips parsed false firstErr =
      (some (validateErrMsg firstErr),
        validateEffectOnCaller value schema containsObjectId skips)) ∧
    (modelDecode value applyDefault (.ok result) = (none, result)) ∧
    (modelDecode value applyDefault (.error e) =
      (some (parseErrMsg "Unknown decoding error" e), .vundef)) ∧
    (modelEncode value applyDefault (.ok result) = (none, result)) ∧
    (modelEncode value applyDefault (.error e) =
      (some (parseErrMsg "Unknown encoding error" e), .vundef)) :=
  ⟨rfl, rfl, rfl, rfl, rfl, rfl⟩

/-- C4 counterexample: with an empty skip-list the operation list passed
to `Value.Parse` is `['Clone', 'Clone', 'Clean', 'Default', 'Convert']` —
`Clone` is prepended to a difference that already contains it, so the
sequence is not de-duplicated and `Clone` appears twice. -/
theorem validate_ops_clone_duplicated :
    validateOps [] = ["Clone", "Clone", "Clean", "Default", "Convert"] ∧
    ¬ (validateOps []).Nodup := by
  refine ⟨rfl, ?_⟩
  rw [show validateOps [] = ["Clone", "Clone", "Clean", "Default", "Convert"]
    from rfl]
  decide

/-- C4 amended: for every skip-list accepted by `validate` (one drawn from
`Clean`/`Default`/`Convert`), the operation sequence passed to the parse
capability is `Clone` followed by the ordered difference
`{Clone, Clean, Default, Convert}` minus the skip-list — so `Clone` is
always first but appears twice (once prepended and once surviving the
difference), while every other stage appears at most once, exactly when it
is not skipped. -/
theorem validate_ops_shape (skip : List String)
    (hskip : ∀ x ∈ skip, x = "Clean" ∨ x = "Default" ∨ x = "Convert") :
    validateOps skip =
      "Clone" :: "Clone" ::
        (["Clean", "Default", "Convert"].filter (fun x => !skip.contains x)) ∧
    (validateOps skip).head? = some "Clone" ∧
    (validateOps skip).count "Clone" = 2 ∧
    ∀ st : String, st ≠ "Clone" → (validateOps skip).count st ≤ 1 := by
  have hclone : "Clone" ∉ skip := by
    intro hmem
    rcases hskip "Clone" hmem with h | h | h <;> simp at h
  have heq := validateOps_eq skip hclone
  have hnc : "Clone" ∉ ["Clean", "Default", "Convert"].filter
      (fun x => !skip.contains x) := by
    intro hmem
    have := List.mem_of_mem_filter hmem
    simp at this
  have hsub : (["Clean", "Default", "Convert"].filter
      (fun x => !skip.contains x)).Nodup :=
    List.Nodup.filter _ (by decide)
  refine ⟨heq, by rw [heq]; rfl, ?_, ?_⟩
  · rw [heq]
    simp only [List.count_cons]
    rw [List.count_eq_zero.mpr hnc]
    simp
  · intro st hst
    rw [heq]
    have h1 : (["Clean", "Default", "Convert"].filter
        (fun x => !skip.contains x)).count st ≤ 1 :=
      List.nodup_iff_count_le_one.mp hsub st
    simpa [List.count_cons, Ne.symm hst] using h1

/-- C4 witness. -/
theorem validate_ops_shape_witness :
    (∀ x ∈ ["Convert"], x = "Clean" ∨ x = "Default" ∨ x = "Convert") ∧
    validateOps ["Convert"] = ["Clone", "Clone", "Clean", "Default"] ∧
    (validateOps ["Convert"]).count "Clone" = 2 := by
  refine ⟨by decide, ?_, ?_⟩
  · have h := (validate_ops_shape ["Convert"] (by decide)).1
    simpa using h
  · exact (validate_ops_shape ["Convert"] (by decide)).2.2.1

/-- Absorption identity (helper): for every schema `S` and every value `v`
whose ObjectId instances are all canonically encoded, running
`convertObjectIdToStrings` over the paths `getObjectIdPaths S` and then
`convertStringsToObjectIds` over the same paths produces exactly what
`convertStringsToObjectIds` alone makes of the original value.  Note this
compares the round trip against the library's own strings-to-identifiers
pass, not against the identifier form: wherever that pass is itself a
no-op (in particular under a terminal-wildcard path, where `setValue`
never converts), the round trip is a no-op too. -/
theorem roundtrip_eq_s2o (S : Schema) (v : Value) (hc : canonV v = true) :
    convertStringsToObjectIds
        (convertObjectIdToStrings v S (getObjectIdPaths S)) S
        (getObjectIdPaths S) =
      convertStringsToObjectIds v S (getObjectIdPaths S) := by
  by_cases hroot : getObjectIdPaths S = [""]
  · rw [hroot, convertO2S_root v S]
    cases v with
    | oid o =>
      have hco : canonOID o = true := by rw [canonV_oid] at hc; exact hc
      show convertStringsToObjectIds (.vstr (oidToString o)) S [""] = _
      rw [convertS2O_root_vstr (oidToString o) S (oidIsValid_toString o hco),
        convertS2O_root_oid o S, mkOID_oidToString o hco]
    | vnull => rfl
    | vundef => rfl
    | vbool b => rfl
    | vnum n => rfl
    | vstr s => rfl
    | varr l => rfl
    | vobj ps => rfl
  · have hO : convertObjectIdToStrings v S (getObjectIdPaths S) =
        foldPaths actO2S (getObjectIdPaths S) v := by
      unfold convertObjectIdToStrings
      rw [if_neg hroot]
    have hS : ∀ w, convertStringsToObjectIds w S (getObjectIdPaths S) =
        foldPaths actS2O (getObjectIdPaths S) w := by
      intro w
      unfold convertStringsToObjectIds
      rw [if_neg hroot]
    rw [hO, hS, hS]
    exact foldS_foldO (getObjectIdPaths S) (getObjectIdPaths S)
      (fun q hq => hq) v hc

/-- **C2 counterexample.** Over
`Type.Object({ contacts: Type.Array(Utils.ObjectId()) })` the only
identifier path is the wildcard path `contacts.*`.  On the input
`{ contacts: ['507f1f77bcf86cd799439011', 'not-a-valid-objectid'] }` —
whose first element is a validly-formatted 24-hex identifier string,
explicitly in scope for the claim — the full round trip
(`convertObjectIdToStrings` then `convertStringsToObjectIds` over those
paths) returns the value unchanged: the terminal-wildcard step of
`setValue` fans out with an empty remaining segment list and converts
nothing, in either direction.  The valid element therefore remains the
string and is never reconstructed as its identifier form
`ObjectId('507f1f77bcf86cd799439011')`, refuting the claim's conclusion
that identifier-typed fields come back byte-identical to identifier
form. -/
theorem roundtrip_wildcard_counterexample :
    getObjectIdPaths schemaContacts = ["contacts.*"] ∧
    oidIsValid "507f1f77bcf86cd799439011" = true ∧
    convertStringsToObjectIds
        (convertObjectIdToStrings valueContacts schemaContacts
          (getObjectIdPaths schemaContacts)) schemaContacts
        (getObjectIdPaths schemaContacts) = valueContacts ∧
    valueContacts.memGet "contacts" =
      some (.varr (.cons (.vstr "507f1f77bcf86cd799439011")
        (.cons (.vstr "not-a-valid-objectid") .nil))) ∧
    (Value.vstr "507f1f77bcf86cd799439011" ≠
      Value.oid (mkOID "507f1f77bcf86cd799439011")) :=
  ⟨rfl, by decide, rfl, rfl, fun h => Value.noConfusion h⟩

/-- **C2 (amended).** For every schema `S` and every value `v` whose
ObjectId instances are canonically encoded (true of every driver-built
instance) and whose identifier-typed fields all already hold identifier
instances — expressed as the strings-to-identifiers pass having nothing
left to convert, `convertStringsToObjectIds v S (getObjectIdPaths S) = v`
— the round trip `convertStringsToObjectIds ∘ convertObjectIdToStrings`
over the paths `getObjectIdPaths S` returns `v` byte-identical: every
identifier-typed field is reconstructed as exactly the original
instance.  (For validly-formatted 24-hex *string* fields the original
claim fails: under a wildcard path neither converter fires, so the
string is never rebuilt in identifier form — see the counterexample.) -/
theorem convert_roundtrip_instances (S : Schema) (v : Value)
    (hc : canonV v = true)
    (hid : convertStringsToObjectIds v S (getObjectIdPaths S) = v) :
    convertStringsToObjectIds
        (convertObjectIdToStrings v S (getObjectIdPaths S)) S
        (getObjectIdPaths S) = v := by
  rw [roundtrip_eq_s2o S v hc, hid]

/-- C2 witness: the amended round-trip theorem applied to
`Type.Object({ _id: Utils.ObjectId() })` and the input
`{ _id: ObjectId('507f1f77bcf86cd799439011') }`, whose `_id` field
already holds an ObjectId instance. -/
theorem convert_roundtrip_instances_witness :
    canonV valueUser = true ∧
    convertStringsToObjectIds valueUser schemaUser
      (getObjectIdPaths schemaUser) = valueUser ∧
    convertStringsToObjectIds
        (convertObjectIdToStrings valueUser schemaUser
          (getObjectIdPaths schemaUser)) schemaUser
        (getObjectIdPaths schemaUser) = valueUser :=
  ⟨rfl, rfl, convert_roundtrip_instances schemaUser valueUser rfl rfl⟩

end TBU
